import Mathlib

/-! # kal: activity and session tracking

A shallow embedding of `cmd/kal/kal.go`.

* `time.Time` is an integer count of nanoseconds measured from Go's zero
  instant, so `Time.IsZero` is the test `t = 0`; `time.Duration` is an
  integer count of nanoseconds.
* A Go slice is a `List`.
* The `Storer` is explicit state: a command receives the snapshot that
  `a.storage.Load()` returned and reports the argument of its
  `a.storage.Save(...)` call, if it made one.  The stored snapshot after the
  command is that argument, or the loaded snapshot when nothing was saved.
* `time.Now()` is an explicit argument `now`.
* A `float64` is the rational it denotes, and every `float64` operation
  rounds its exact result to the nearest value with a 53-bit significand,
  ties to even (`f64`); `Duration.Hours`, `Duration.Minutes` and
  `Duration.Seconds` follow their definitions in package `time`.
-/

set_option autoImplicit false

namespace Kal

/-- An instant: nanoseconds since the zero value of `time.Time`. -/
abbrev Time := Int

/-- The Go method `Time.IsZero`. -/
def IsZero (t : Time) : Bool := t == 0

/-- The Go struct `Session`; an `EndedAt` left at the zero value means "open". -/
structure Session where
  StartedAt : Time
  EndedAt : Time
deriving DecidableEq

/-- The Go struct `Activity`. -/
structure Activity where
  Name : String
  Sessions : List Session
deriving DecidableEq

/-- What one command run did: the `error` it returned (`none` is Go's `nil`)
    and the slice it handed to `a.storage.Save`, if it called it. -/
structure Outcome where
  err : Option String
  saved : Option (List Activity)
deriving DecidableEq

/-- The stored snapshot after a command that loaded `loaded`. -/
def Outcome.store (o : Outcome) (loaded : List Activity) : List Activity :=
  o.saved.getD loaded

/-- The message `fmt.Sprintf("activity \"%s\" already exists", name)`. -/
def alreadyExistsMsg (name : String) : String :=
  "activity \"" ++ name ++ "\" already exists"

/-- The message `fmt.Sprintf("unknown activity name \"%s\"", name)`. -/
def unknownActivityMsg (name : String) : String :=
  "unknown activity name \"" ++ name ++ "\""

/-- The message returned by `start` when the last session is unfinished. -/
def unfinishedSessionMsg (name : String) : String :=
  "activity \"" ++ name ++ "\" has an unfinished session. please finish or remove it first"

/-- The message returned by `stop` when there is nothing to finish. -/
def noUnfinishedSessionMsg (name : String) : String :=
  "activity \"" ++ name ++ "\" has no unfinished sessions. please create a new session"

/-- The message `fmt.Sprintf("no activity with name \"%s\" found", name)`. -/
def noActivityFoundMsg (name : String) : String :=
  "no activity with name \"" ++ name ++ "\" found"

/-- The message of `errors.New("missing activity name")`. -/
def missingNameMsg : String := "missing activity name"

/-- The message returned by `rename` when it gets fewer than two arguments. -/
def expectedTwoMsg : String := "expected 2 arguments. old name and new name"

/-- The search loop shared by `start`, `stop` and `remove`:
    `for i := range activities { if activities[i].Name == activityName { ...; break } }`.
    It yields the first index whose activity carries the name together with
    that activity, or `none` (the `nil` pointer, index `-1`). -/
def findActivity (activityName : String) : List Activity → Option (Nat × Activity)
  | [] => none
  | activity :: rest =>
    if activity.Name = activityName then some (0, activity)
    else (findActivity activityName rest).map (fun p => (p.1 + 1, p.2))

/-- The test `len(s) > 0 && s[len(s)-1].EndedAt.IsZero()` on a session slice. -/
def lastIsUnfinished (sessions : List Session) : Bool :=
  match sessions.getLast? with
  | some last => IsZero last.EndedAt
  | none => false

/-- The `RunE` body of `newActivityCmd`. -/
def newActivityCmd (args : List String) (activities : List Activity) : Outcome :=
  match args with
  | [] => ⟨none, none⟩
  | newActivityName :: _ =>
    if activities.any (fun activity => activity.Name = newActivityName) then
      ⟨some (alreadyExistsMsg newActivityName), none⟩
    else
      ⟨none, some (activities ++ [⟨newActivityName, []⟩])⟩

/-- The `RunE` body of `startActivityCmd`, with `time.Now()` passed as `now`. -/
def startActivityCmd (args : List String) (now : Time) (activities : List Activity) :
    Outcome :=
  match args with
  | [] => ⟨some missingNameMsg, none⟩
  | activityName :: _ =>
    match findActivity activityName activities with
    | none => ⟨some (unknownActivityMsg activityName), none⟩
    | some (i, activity) =>
      if lastIsUnfinished activity.Sessions then
        ⟨some (unfinishedSessionMsg activityName), none⟩
      else
        ⟨none, some (activities.set i
          { activity with Sessions := activity.Sessions ++ [⟨now, 0⟩] })⟩

/-- The assignment `sessions[len(sessions)-1].EndedAt = now`. -/
def closeLast (sessions : List Session) (now : Time) : List Session :=
  match sessions.getLast? with
  | some last => sessions.set (sessions.length - 1) { last with EndedAt := now }
  | none => sessions

/-- The `RunE` body of `stopActivityCmd`, with `time.Now()` passed as `now`. -/
def stopActivityCmd (args : List String) (now : Time) (activities : List Activity) :
    Outcome :=
  match args with
  | [] => ⟨some missingNameMsg, none⟩
  | activityName :: _ =>
    match findActivity activityName activities with
    | none => ⟨some (unknownActivityMsg activityName), none⟩
    | some (activityIndex, activity) =>
      if activity.Sessions.length = 0 || !lastIsUnfinished activity.Sessions then
        ⟨some (noUnfinishedSessionMsg activityName), none⟩
      else
        ⟨none, some (activities.set activityIndex
          { activity with Sessions := closeLast activity.Sessions now })⟩

/-- The `RunE` body of `removeActivityCmd`. -/
def removeActivityCmd (args : List String) (activities : List Activity) : Outcome :=
  match args with
  | [] => ⟨some missingNameMsg, none⟩
  | activityName :: _ =>
    match findActivity activityName activities with
    | none => ⟨none, none⟩
    | some (activityIndex, _) =>
      ⟨none, some (activities.take activityIndex ++ activities.drop (activityIndex + 1))⟩

/-- The loop of `renameActivityCmd`: the first activity named `oldName` gets
    `newName` and the loop breaks; the flag is `isFound`. -/
def renameLoop (oldName newName : String) : List Activity → List Activity × Bool
  | [] => ([], false)
  | a :: rest =>
    if a.Name = oldName then ({ a with Name := newName } :: rest, true)
    else ((a :: (renameLoop oldName newName rest).1), (renameLoop oldName newName rest).2)

/-- The `RunE` body of `renameActivityCmd`. -/
def renameActivityCmd (args : List String) (activities : List Activity) : Outcome :=
  match args with
  | oldName :: newName :: _ =>
    if (renameLoop oldName newName activities).2 then
      ⟨none, some (renameLoop oldName newName activities).1⟩
    else
      ⟨some (noActivityFoundMsg oldName), none⟩
  | _ => ⟨some expectedTwoMsg, none⟩

/-- The locals of the loop in `getActivityStats`. -/
structure StatsAcc where
  totalDuration : Int
  hasActiveSession : Bool
  activeSince : Time
deriving DecidableEq

/-- One iteration of the loop in `getActivityStats`; `time.Since(t)` is
    `now - t` and `t.Sub(u)` is `t - u`. -/
def statsStep (now : Time) (acc : StatsAcc) (session : Session) : StatsAcc :=
  if IsZero session.EndedAt then
    { totalDuration := acc.totalDuration + (now - session.StartedAt)
      hasActiveSession := true
      activeSince := session.StartedAt }
  else
    { acc with
      totalDuration := acc.totalDuration + (session.EndedAt - session.StartedAt) }

/-- The fields of `ActivityStats` before rendering: `TotalHoursSpent` and
    `TotalSpentFormatted` are both computed from `TotalDuration`, and
    `ActiveSince` is the instant that the source prints in RFC 822 form. -/
structure ActivityStats where
  Name : String
  TotalDuration : Int
  IsActive : Bool
  ActiveSince : Time
deriving DecidableEq

/-- The method `Application.getActivityStats`, with the clock passed as `now`. -/
def getActivityStats (now : Time) (activity : Activity) : ActivityStats :=
  let acc := activity.Sessions.foldl (statsStep now) ⟨0, false, 0⟩
  { Name := activity.Name
    TotalDuration := acc.totalDuration
    IsActive := acc.hasActiveSession
    ActiveSince := acc.activeSince }

/-- One service operation of a run; `start` and `stop` carry the clock
    reading they observe. -/
inductive Op where
  | create (name : String)
  | start (name : String) (now : Time)
  | stop (name : String) (now : Time)
  | remove (name : String)
  | rename (oldName newName : String)
deriving DecidableEq

/-- The command run that an operation stands for. -/
def Op.exec (op : Op) (activities : List Activity) : Outcome :=
  match op with
  | .create name => newActivityCmd [name] activities
  | .start name now => startActivityCmd [name] now activities
  | .stop name now => stopActivityCmd [name] now activities
  | .remove name => removeActivityCmd [name] activities
  | .rename oldName newName => renameActivityCmd [oldName, newName] activities

/-- The stored snapshot after running the operations in order. -/
def run : List Op → List Activity → List Activity
  | [], activities => activities
  | op :: ops, activities => run ops ((op.exec activities).store activities)

/-- The loop of `logActivitiesCmd` that collects `unfinishedActivities`: an
    activity is appended when its last session has a zero `EndedAt`. -/
def logActivitiesCmd (activities : List Activity) : List Activity :=
  activities.foldl
    (fun unfinishedActivities activity =>
      if lastIsUnfinished activity.Sessions then unfinishedActivities ++ [activity]
      else unfinishedActivities)
    []

/-- The clock reading an operation observes, if it reads the clock. -/
def Op.clock (op : Op) : Option Time :=
  match op with
  | .start _ now => some now
  | .stop _ now => some now
  | _ => none

/-- The successive clock readings of a sequence of operations. -/
def clockReadings (ops : List Op) : List Time :=
  ops.filterMap Op.clock

/-- An operation other than rename. -/
def Op.notRename (op : Op) : Bool :=
  match op with
  | .rename _ _ => false
  | _ => true

/-- Every session in front of the last one has its `EndedAt` set. -/
def openOnlyLast (sessions : List Session) : Prop :=
  ∀ s ∈ sessions.dropLast, s.EndedAt ≠ 0

/-- A closed session does not end before it starts, and each session in
    front of another one is closed and ends no later than the next starts. -/
def chronological (sessions : List Session) : Prop :=
  (∀ s ∈ sessions, s.EndedAt ≠ 0 → s.StartedAt ≤ s.EndedAt) ∧
  List.Chain' (fun s t => s.EndedAt ≠ 0 ∧ s.StartedAt ≤ s.EndedAt ∧ s.EndedAt ≤ t.StartedAt)
    sessions

/-- No instant recorded in the sessions lies after `t`. -/
def notAfter (sessions : List Session) (t : Time) : Prop :=
  ∀ s ∈ sessions, s.StartedAt ≤ t ∧ (s.EndedAt ≠ 0 → s.EndedAt ≤ t)

/-- The integer nearest to a rational, a tie going to the even neighbour. -/
def roundHalfEven (q : ℚ) : Int :=
  if q - ⌊q⌋ < 1 / 2 then ⌊q⌋
  else if 1 / 2 < q - ⌊q⌋ then ⌊q⌋ + 1
  else if ⌊q⌋ % 2 = 0 then ⌊q⌋
  else ⌊q⌋ + 1

/-- The `float64` that an exact result `q` is rounded to: IEEE 754 binary64
    with a 53-bit significand, round to nearest, ties to even.  A `float64`
    is given by the rational it denotes.  The exponent range is not modelled:
    the values met below lie far inside the normal range. -/
def f64 (q : ℚ) : ℚ :=
  if q = 0 then 0
  else (roundHalfEven (q / 2 ^ (Int.log 2 |q| - 52)) : ℚ) * 2 ^ (Int.log 2 |q| - 52)

/-- The Go conversion `int(x)` of a `float64`: the fraction is discarded. -/
def truncToInt (x : ℚ) : Int :=
  if 0 ≤ x then ⌊x⌋ else -⌊-x⌋

/-- The constant `time.Second`, in nanoseconds. -/
def Second : Int := 1000000000

/-- The constant `time.Minute`, in nanoseconds. -/
def Minute : Int := 60 * Second

/-- The constant `time.Hour`, in nanoseconds. -/
def Hour : Int := 60 * Minute

/-- The method `Duration.Hours` of package `time`:
    `hour := d / Hour; nsec := d % Hour;
     return float64(hour) + float64(nsec)/(60*60*1e9)`. -/
def Hours (d : Int) : ℚ :=
  f64 (f64 (Int.tdiv d Hour) + f64 (f64 (Int.tmod d Hour) / f64 (60 * 60 * 1000000000)))

/-- The method `Duration.Minutes` of package `time`:
    `min := d / Minute; nsec := d % Minute;
     return float64(min) + float64(nsec)/(60*1e9)`. -/
def Minutes (d : Int) : ℚ :=
  f64 (f64 (Int.tdiv d Minute) + f64 (f64 (Int.tmod d Minute) / f64 (60 * 1000000000)))

/-- The method `Duration.Seconds` of package `time`:
    `sec := d / Second; nsec := d % Second;
     return float64(sec) + float64(nsec)/1e9`. -/
def Seconds (d : Int) : ℚ :=
  f64 (f64 (Int.tdiv d Second) + f64 (f64 (Int.tmod d Second) / f64 1000000000))

/-- The function `formatDurationHMS`. -/
def formatDurationHMS (d : Int) : Int × Int × Int :=
  (truncToInt (Hours d), Int.tmod (truncToInt (Minutes d)) 60,
    Int.tmod (truncToInt (Seconds d)) 60)

/-- The verb `%02d` of `fmt.Sprintf`: decimal digits, zero-padded to width
    two, a minus sign counting towards the width. -/
def pad2 (n : Int) : String :=
  if 0 ≤ n ∧ n < 10 then "0" ++ toString n else toString n

/-- The call `fmt.Sprintf("%02dh %02dm %02ds", h, m, s)`. -/
def sprintfHMS (h m s : Int) : String :=
  pad2 h ++ "h " ++ pad2 m ++ "m " ++ pad2 s ++ "s"

/-- The function `formatDuration`. -/
def formatDuration (d : Int) : String :=
  sprintfHMS (truncToInt (Hours d)) (Int.tmod (truncToInt (Minutes d)) 60)
    (Int.tmod (truncToInt (Seconds d)) 60)

/-- The field `TotalSpentFormatted` that `getActivityStats` fills in:
    `formatDuration(totalDuration)`. -/
def ActivityStats.TotalSpentFormatted (stats : ActivityStats) : String :=
  formatDuration stats.TotalDuration

/-- One run of a command together with the argument list it is given;
    `start` and `stop` carry the clock reading they observe. -/
inductive Command where
  | newActivity (args : List String)
  | start (args : List String) (now : Time)
  | stop (args : List String) (now : Time)
  | remove (args : List String)
  | rename (args : List String)
deriving DecidableEq

/-- The `RunE` body that a command run executes. -/
def Command.exec (c : Command) (activities : List Activity) : Outcome :=
  match c with
  | .newActivity args => newActivityCmd args activities
  | .start args now => startActivityCmd args now activities
  | .stop args now => stopActivityCmd args now activities
  | .remove args => removeActivityCmd args activities
  | .rename args => renameActivityCmd args activities

/-- The stored snapshot after the command runs in order. -/
def runCommands : List Command → List Activity → List Activity
  | [], activities => activities
  | c :: cs, activities => runCommands cs ((c.exec activities).store activities)

/-- The number of command runs of a sequence started on `activities` that
    satisfy `p` when tested with the snapshot they load. -/
def countCommands (p : Command → List Activity → Bool) :
    List Command → List Activity → Nat
  | [], _ => 0
  | c :: cs, activities =>
    (if p c activities then 1 else 0)
      + countCommands p cs ((c.exec activities).store activities)

/-- A `new-activity` run that returned no error. -/
def createReturnedSuccess (c : Command) (activities : List Activity) : Bool :=
  match c with
  | .newActivity _ => (c.exec activities).err.isNone
  | _ => false

/-- A `remove` run that returned no error. -/
def removeReturnedSuccess (c : Command) (activities : List Activity) : Bool :=
  match c with
  | .remove _ => (c.exec activities).err.isNone
  | _ => false

/-- A `new-activity` run that was given a name argument and returned no
    error. -/
def createdWithName (c : Command) (activities : List Activity) : Bool :=
  match c with
  | .newActivity (_ :: _) => (c.exec activities).err.isNone
  | _ => false

/-- A `remove` run whose name argument is carried by a stored activity. -/
def removedStored (c : Command) (activities : List Activity) : Bool :=
  match c with
  | .remove (name :: _) => activities.any (fun activity => activity.Name = name)
  | _ => false

/-! ## Lemmas on the search loop and on slice updates -/

theorem findActivity_eq_none (name : String) (l : List Activity) :
    findActivity name l = none ↔ ∀ a ∈ l, a.Name ≠ name := by
  induction l with
  | nil => simp [findActivity]
  | cons b l ih =>
    by_cases h : b.Name = name
    · simp [findActivity, h]
    · simp [findActivity, h, ih]

theorem findActivity_first (name : String) (pre : List Activity) (a : Activity)
    (post : List Activity) (hpre : ∀ b ∈ pre, b.Name ≠ name) (ha : a.Name = name) :
    findActivity name (pre ++ a :: post) = some (pre.length, a) := by
  induction pre with
  | nil => simp [findActivity, ha]
  | cons b pre ih =>
    have hb : b.Name ≠ name := hpre b (List.mem_cons_self _ _)
    have ih' := ih (fun c hc => hpre c (List.mem_cons_of_mem _ hc))
    simp [findActivity, hb, ih']

theorem findActivity_some (name : String) (l : List Activity) (i : Nat) (a : Activity)
    (h : findActivity name l = some (i, a)) :
    ∃ pre post, l = pre ++ a :: post ∧ i = pre.length ∧
      (∀ b ∈ pre, b.Name ≠ name) ∧ a.Name = name := by
  induction l generalizing i with
  | nil => simp [findActivity] at h
  | cons b l ih =>
    by_cases hb : b.Name = name
    · simp [findActivity, hb] at h
      obtain ⟨rfl, rfl⟩ := h
      exact ⟨[], l, rfl, rfl, by simp, hb⟩
    · simp [findActivity, hb] at h
      obtain ⟨j, hj, rfl⟩ := h
      obtain ⟨pre, post, hl, hlen, hpre, ha⟩ := ih j hj
      refine ⟨b :: pre, post, by simp [hl], by simp [hlen], ?_, ha⟩
      intro c hc
      rcases List.mem_cons.mp hc with rfl | hc
      · exact hb
      · exact hpre c hc

theorem set_at_split {α : Type} (pre : List α) (a b : α) (post : List α) :
    (pre ++ a :: post).set pre.length b = pre ++ b :: post := by
  induction pre with
  | nil => rfl
  | cons c pre ih => simp [ih]

theorem splice_at_split {α : Type} (pre : List α) (a : α) (post : List α) :
    (pre ++ a :: post).take pre.length ++ (pre ++ a :: post).drop (pre.length + 1)
      = pre ++ post := by
  induction pre with
  | nil => simp
  | cons c pre ih => simp

theorem lastIsUnfinished_iff (sessions : List Session) :
    lastIsUnfinished sessions = true ↔
      ∃ last, sessions.getLast? = some last ∧ last.EndedAt = 0 := by
  unfold lastIsUnfinished
  cases h : sessions.getLast? with
  | none => simp
  | some last => simp [IsZero]

theorem closeLast_concat (init : List Session) (last : Session) (now : Time) :
    closeLast (init ++ [last]) now = init ++ [⟨last.StartedAt, now⟩] := by
  unfold closeLast
  simp
/-! ## Start -/

/-- C1. Start characterisation: the command fails and saves nothing when no
    activity has the name, and when the last session of the first activity
    with the name has an unset `EndedAt`; otherwise it succeeds and saves the
    loaded list in which that activity has the one session `(now, unset)`
    appended behind its prior sessions.  When no prior session was open, the
    new last session is the only open one afterwards. -/
theorem startActivityCmd_characterisation (store : List Activity) (name : String)
    (rest : List String) (now : Time) :
    ((∀ a ∈ store, a.Name ≠ name) →
      startActivityCmd (name :: rest) now store = ⟨some (unknownActivityMsg name), none⟩) ∧
    (∀ pre a post, store = pre ++ a :: post → (∀ b ∈ pre, b.Name ≠ name) → a.Name = name →
      ((∃ last, a.Sessions.getLast? = some last ∧ last.EndedAt = 0) →
        startActivityCmd (name :: rest) now store
          = ⟨some (unfinishedSessionMsg name), none⟩) ∧
      ((¬ ∃ last, a.Sessions.getLast? = some last ∧ last.EndedAt = 0) →
        startActivityCmd (name :: rest) now store
          = ⟨none, some (pre ++ ⟨a.Name, a.Sessions ++ [⟨now, 0⟩]⟩ :: post)⟩) ∧
      ((∀ s ∈ a.Sessions, s.EndedAt ≠ 0) →
        startActivityCmd (name :: rest) now store
          = ⟨none, some (pre ++ ⟨a.Name, a.Sessions ++ [⟨now, 0⟩]⟩ :: post)⟩ ∧
        (a.Sessions ++ [⟨now, 0⟩]).filter (fun s => IsZero s.EndedAt) = [⟨now, 0⟩] ∧
        (a.Sessions ++ [⟨now, 0⟩]).getLast? = some ⟨now, 0⟩)) := by
  constructor
  · intro hnone
    have hf := (findActivity_eq_none name store).mpr hnone
    simp [startActivityCmd, hf]
  · intro pre a post hstore hpre ha
    have hf := findActivity_first name pre a post hpre ha
    have hfail : (∃ last, a.Sessions.getLast? = some last ∧ last.EndedAt = 0) →
        startActivityCmd (name :: rest) now store
          = ⟨some (unfinishedSessionMsg name), none⟩ := by
      intro hopen
      have hl := (lastIsUnfinished_iff a.Sessions).mpr hopen
      simp [startActivityCmd, hstore, hf, hl]
    have hok : (¬ ∃ last, a.Sessions.getLast? = some last ∧ last.EndedAt = 0) →
        startActivityCmd (name :: rest) now store
          = ⟨none, some (pre ++ ⟨a.Name, a.Sessions ++ [⟨now, 0⟩]⟩ :: post)⟩ := by
      intro hclosed
      have hl : lastIsUnfinished a.Sessions = false := by
        cases h : lastIsUnfinished a.Sessions with
        | false => rfl
        | true => exact absurd ((lastIsUnfinished_iff a.Sessions).mp h) hclosed
      simp [startActivityCmd, hstore, hf, hl, set_at_split]
    refine ⟨hfail, hok, ?_⟩
    intro hall
    refine ⟨hok ?_, ?_, by simp⟩
    · rintro ⟨last, hlast, hz⟩
      exact hall last (List.mem_of_getLast?_eq_some hlast) hz
    · have hnil : a.Sessions.filter (fun s => IsZero s.EndedAt) = [] := by
        rw [List.filter_eq_nil_iff]
        intro s hs
        simpa [IsZero] using hall s hs
      rw [List.filter_append, hnil]
      simp [IsZero]

/-- Witness for C1: an unknown name, an unfinished last session, and a
    successful start on an activity whose sessions are all closed. -/
theorem startActivityCmd_characterisation_witness :
    startActivityCmd ["swim"] 7 [⟨"walk", []⟩, ⟨"run", [⟨1, 2⟩]⟩]
        = ⟨some (unknownActivityMsg "swim"), none⟩ ∧
    startActivityCmd ["run"] 7 [⟨"walk", []⟩, ⟨"run", [⟨1, 2⟩, ⟨3, 0⟩]⟩]
        = ⟨some (unfinishedSessionMsg "run"), none⟩ ∧
    startActivityCmd ["run"] 7 [⟨"walk", []⟩, ⟨"run", [⟨1, 2⟩]⟩]
        = ⟨none, some [⟨"walk", []⟩, ⟨"run", [⟨1, 2⟩, ⟨7, 0⟩]⟩]⟩ ∧
    ([⟨1, 2⟩, ⟨7, 0⟩] : List Session).filter (fun s => IsZero s.EndedAt) = [⟨7, 0⟩] :=
  ⟨(startActivityCmd_characterisation [⟨"walk", []⟩, ⟨"run", [⟨1, 2⟩]⟩] "swim" [] 7).1
      (by decide),
   ((startActivityCmd_characterisation [⟨"walk", []⟩, ⟨"run", [⟨1, 2⟩, ⟨3, 0⟩]⟩] "run" [] 7).2
      [⟨"walk", []⟩] ⟨"run", [⟨1, 2⟩, ⟨3, 0⟩]⟩ [] rfl (by decide) rfl).1
      ⟨⟨3, 0⟩, rfl, rfl⟩,
   (((startActivityCmd_characterisation [⟨"walk", []⟩, ⟨"run", [⟨1, 2⟩]⟩] "run" [] 7).2
      [⟨"walk", []⟩] ⟨"run", [⟨1, 2⟩]⟩ [] rfl (by decide) rfl).2.2 (by decide)).1,
   (((startActivityCmd_characterisation [⟨"walk", []⟩, ⟨"run", [⟨1, 2⟩]⟩] "run" [] 7).2
      [⟨"walk", []⟩] ⟨"run", [⟨1, 2⟩]⟩ [] rfl (by decide) rfl).2.2 (by decide)).2.1⟩

/-- C2, as stated, fails: the first activity named "run" has an open session
    (its first one), yet `start` succeeds and saves a changed list, because
    only the last session is inspected. -/
theorem start_open_session_not_last_counterexample :
    (∃ s ∈ ([⟨1, 0⟩, ⟨2, 3⟩] : List Session), s.EndedAt = 0) ∧
    (startActivityCmd ["run"] 7 [⟨"run", [⟨1, 0⟩, ⟨2, 3⟩]⟩]).err = none ∧
    (startActivityCmd ["run"] 7 [⟨"run", [⟨1, 0⟩, ⟨2, 3⟩]⟩]).store
        [⟨"run", [⟨1, 0⟩, ⟨2, 3⟩]⟩]
      = [⟨"run", [⟨1, 0⟩, ⟨2, 3⟩, ⟨7, 0⟩]⟩] ∧
    (startActivityCmd ["run"] 7 [⟨"run", [⟨1, 0⟩, ⟨2, 3⟩]⟩]).store
        [⟨"run", [⟨1, 0⟩, ⟨2, 3⟩]⟩]
      ≠ [⟨"run", [⟨1, 0⟩, ⟨2, 3⟩]⟩] := by
  refine ⟨⟨⟨1, 0⟩, by decide, rfl⟩, by decide, by decide, by decide⟩

/-- C2, amended. For the first activity with the name, `start` fails with the
    unfinished-session error exactly when the last session of that activity
    has an unset `EndedAt`; then nothing is saved and the store is unchanged. -/
theorem startActivityCmd_fails_iff_last_open (store : List Activity) (name : String)
    (rest : List String) (now : Time) (pre : List Activity) (a : Activity)
    (post : List Activity) (hstore : store = pre ++ a :: post)
    (hpre : ∀ b ∈ pre, b.Name ≠ name) (ha : a.Name = name) :
    ((startActivityCmd (name :: rest) now store).err = some (unfinishedSessionMsg name) ↔
      ∃ last, a.Sessions.getLast? = some last ∧ last.EndedAt = 0) ∧
    ((∃ last, a.Sessions.getLast? = some last ∧ last.EndedAt = 0) →
      startActivityCmd (name :: rest) now store = ⟨some (unfinishedSessionMsg name), none⟩ ∧
      (startActivityCmd (name :: rest) now store).store store = store) := by
  have hf := findActivity_first name pre a post hpre ha
  have hfail : (∃ last, a.Sessions.getLast? = some last ∧ last.EndedAt = 0) →
      startActivityCmd (name :: rest) now store
        = ⟨some (unfinishedSessionMsg name), none⟩ := by
    intro hopen
    have hl := (lastIsUnfinished_iff a.Sessions).mpr hopen
    simp [startActivityCmd, hstore, hf, hl]
  refine ⟨⟨?_, fun h => by rw [hfail h]⟩, fun h => ⟨hfail h, by rw [hfail h]; rfl⟩⟩
  intro herr
  by_contra hclosed
  have hl : lastIsUnfinished a.Sessions = false := by
    cases h : lastIsUnfinished a.Sessions with
    | false => rfl
    | true => exact absurd ((lastIsUnfinished_iff a.Sessions).mp h) hclosed
  simp [startActivityCmd, hstore, hf, hl] at herr

/-- Witness for the amended C2. -/
theorem startActivityCmd_fails_iff_last_open_witness :
    startActivityCmd ["run"] 7 [⟨"walk", []⟩, ⟨"run", [⟨1, 2⟩, ⟨3, 0⟩]⟩]
        = ⟨some (unfinishedSessionMsg "run"), none⟩ ∧
    (startActivityCmd ["run"] 7 [⟨"walk", []⟩, ⟨"run", [⟨1, 2⟩, ⟨3, 0⟩]⟩]).store
        [⟨"walk", []⟩, ⟨"run", [⟨1, 2⟩, ⟨3, 0⟩]⟩]
      = [⟨"walk", []⟩, ⟨"run", [⟨1, 2⟩, ⟨3, 0⟩]⟩] :=
  (startActivityCmd_fails_iff_last_open [⟨"walk", []⟩, ⟨"run", [⟨1, 2⟩, ⟨3, 0⟩]⟩] "run" [] 7
    [⟨"walk", []⟩] ⟨"run", [⟨1, 2⟩, ⟨3, 0⟩]⟩ [] rfl (by decide) rfl).2 ⟨⟨3, 0⟩, rfl, rfl⟩

/-! ## Stop -/

theorem stopActivityCmd_closes_last (name : String) (rest : List String) (now : Time)
    (pre : List Activity) (a : Activity) (post : List Activity)
    (hpre : ∀ b ∈ pre, b.Name ≠ name) (ha : a.Name = name)
    (init : List Session) (last : Session) (hsess : a.Sessions = init ++ [last])
    (hopen : last.EndedAt = 0) :
    stopActivityCmd (name :: rest) now (pre ++ a :: post)
      = ⟨none, some (pre ++ ⟨a.Name, init ++ [⟨last.StartedAt, now⟩]⟩ :: post)⟩ := by
  have hf := findActivity_first name pre a post hpre ha
  have hl : lastIsUnfinished a.Sessions = true := by
    simp [lastIsUnfinished, hsess, IsZero, hopen]
  have hlen : a.Sessions.length ≠ 0 := by simp [hsess]
  have hclose := closeLast_concat init last now
  simp [stopActivityCmd, hf, hl, hlen, set_at_split]
  rw [hsess, hclose]

/-- C3. Stop characterisation: the command fails and saves nothing when no
    activity has the name, and when the first activity with the name has no
    session or a last session whose `EndedAt` is set; otherwise it succeeds
    and saves the loaded list in which the last session of that activity has
    `EndedAt = now`, its `StartedAt`, the earlier sessions and every other
    activity being unchanged. -/
theorem stopActivityCmd_characterisation (store : List Activity) (name : String)
    (rest : List String) (now : Time) :
    ((∀ a ∈ store, a.Name ≠ name) →
      stopActivityCmd (name :: rest) now store = ⟨some (unknownActivityMsg name), none⟩) ∧
    (∀ pre a post, store = pre ++ a :: post → (∀ b ∈ pre, b.Name ≠ name) → a.Name = name →
      ((a.Sessions = [] ∨ ∃ last, a.Sessions.getLast? = some last ∧ last.EndedAt ≠ 0) →
        stopActivityCmd (name :: rest) now store
          = ⟨some (noUnfinishedSessionMsg name), none⟩) ∧
      (∀ init last, a.Sessions = init ++ [last] → last.EndedAt = 0 →
        stopActivityCmd (name :: rest) now store
          = ⟨none, some (pre ++ ⟨a.Name, init ++ [⟨last.StartedAt, now⟩]⟩ :: post)⟩)) := by
  constructor
  · intro hnone
    have hf := (findActivity_eq_none name store).mpr hnone
    simp [stopActivityCmd, hf]
  · intro pre a post hstore hpre ha
    have hf := findActivity_first name pre a post hpre ha
    constructor
    · rintro (hnil | ⟨last, hlast, hset⟩)
      · simp [stopActivityCmd, hstore, hf, hnil]
      · have hl : lastIsUnfinished a.Sessions = false := by
          simp [lastIsUnfinished, hlast, IsZero, hset]
        simp [stopActivityCmd, hstore, hf, hl]
    · intro init last hsess hopen
      rw [hstore]
      exact stopActivityCmd_closes_last name rest now pre a post hpre ha init last hsess hopen

/-- Witness for C3: an unknown name, an activity without sessions, a closed
    last session, and a successful stop. -/
theorem stopActivityCmd_characterisation_witness :
    stopActivityCmd ["swim"] 9 [⟨"walk", []⟩, ⟨"run", [⟨1, 2⟩, ⟨3, 0⟩]⟩]
        = ⟨some (unknownActivityMsg "swim"), none⟩ ∧
    stopActivityCmd ["walk"] 9 [⟨"walk", []⟩, ⟨"run", [⟨1, 2⟩, ⟨3, 0⟩]⟩]
        = ⟨some (noUnfinishedSessionMsg "walk"), none⟩ ∧
    stopActivityCmd ["run"] 9 [⟨"walk", []⟩, ⟨"run", [⟨1, 2⟩]⟩]
        = ⟨some (noUnfinishedSessionMsg "run"), none⟩ ∧
    stopActivityCmd ["run"] 9 [⟨"walk", []⟩, ⟨"run", [⟨1, 2⟩, ⟨3, 0⟩]⟩]
        = ⟨none, some [⟨"walk", []⟩, ⟨"run", [⟨1, 2⟩, ⟨3, 9⟩]⟩]⟩ :=
  ⟨(stopActivityCmd_characterisation [⟨"walk", []⟩, ⟨"run", [⟨1, 2⟩, ⟨3, 0⟩]⟩] "swim" [] 9).1
      (by decide),
   ((stopActivityCmd_characterisation [⟨"walk", []⟩, ⟨"run", [⟨1, 2⟩, ⟨3, 0⟩]⟩] "walk" [] 9).2
      [] ⟨"walk", []⟩ [⟨"run", [⟨1, 2⟩, ⟨3, 0⟩]⟩] rfl (by decide) rfl).1 (Or.inl rfl),
   ((stopActivityCmd_characterisation [⟨"walk", []⟩, ⟨"run", [⟨1, 2⟩]⟩] "run" [] 9).2
      [⟨"walk", []⟩] ⟨"run", [⟨1, 2⟩]⟩ [] rfl (by decide) rfl).1
      (Or.inr ⟨⟨1, 2⟩, rfl, by decide⟩),
   ((stopActivityCmd_characterisation [⟨"walk", []⟩, ⟨"run", [⟨1, 2⟩, ⟨3, 0⟩]⟩] "run" [] 9).2
      [⟨"walk", []⟩] ⟨"run", [⟨1, 2⟩, ⟨3, 0⟩]⟩ [] rfl (by decide) rfl).2
      [⟨1, 2⟩] ⟨3, 0⟩ rfl rfl⟩

theorem foldl_statsStep_hasActiveSession (now : Time) (sessions : List Session)
    (acc : StatsAcc) :
    (sessions.foldl (statsStep now) acc).hasActiveSession
      = (acc.hasActiveSession || sessions.any (fun s => IsZero s.EndedAt)) := by
  induction sessions generalizing acc with
  | nil => simp
  | cons s sessions ih =>
    rw [List.foldl_cons, ih]
    by_cases hs : IsZero s.EndedAt = true
    · simp [statsStep, hs]
    · simp [statsStep, hs, Bool.or_assoc]

theorem getActivityStats_IsActive (now : Time) (activity : Activity) :
    (getActivityStats now activity).IsActive
      = activity.Sessions.any (fun s => IsZero s.EndedAt) := by
  simp [getActivityStats, foldl_statsStep_hasActiveSession]

/-- C4, as stated, fails: the activity "run" has exactly one open session,
    but it is not the last one, so `stop` fails, the session stays open and
    the stats still report the activity as active. -/
theorem stop_only_open_session_not_last_counterexample :
    ([⟨1, 0⟩, ⟨2, 3⟩] : List Session).countP (fun s => IsZero s.EndedAt) = 1 ∧
    stopActivityCmd ["run"] 7 [⟨"run", [⟨1, 0⟩, ⟨2, 3⟩]⟩]
      = ⟨some (noUnfinishedSessionMsg "run"), none⟩ ∧
    (stopActivityCmd ["run"] 7 [⟨"run", [⟨1, 0⟩, ⟨2, 3⟩]⟩]).store
        [⟨"run", [⟨1, 0⟩, ⟨2, 3⟩]⟩]
      = [⟨"run", [⟨1, 0⟩, ⟨2, 3⟩]⟩] ∧
    (getActivityStats 8 ⟨"run", [⟨1, 0⟩, ⟨2, 3⟩]⟩).IsActive = true := by
  refine ⟨by decide, by decide, by decide, by decide⟩

/-- C4, amended. When the first activity with the name has exactly one open
    session and that session is its last one, `stop` at a non-zero clock
    reading succeeds, saves the list in which that session has
    `EndedAt = now`, and `getActivityStats` of the resulting activity reports
    `IsActive = false` at every later clock reading. -/
theorem stopActivityCmd_only_open_last (store : List Activity) (name : String)
    (rest : List String) (now : Time) (hnow : now ≠ 0) (pre : List Activity)
    (a : Activity) (post : List Activity) (hstore : store = pre ++ a :: post)
    (hpre : ∀ b ∈ pre, b.Name ≠ name) (ha : a.Name = name)
    (hone : a.Sessions.countP (fun s => IsZero s.EndedAt) = 1)
    (hlast : ∃ last, a.Sessions.getLast? = some last ∧ last.EndedAt = 0) :
    ∃ init last, a.Sessions = init ++ [last] ∧ last.EndedAt = 0 ∧
      stopActivityCmd (name :: rest) now store
        = ⟨none, some (pre ++ ⟨a.Name, init ++ [⟨last.StartedAt, now⟩]⟩ :: post)⟩ ∧
      ∀ clock, (getActivityStats clock ⟨a.Name, init ++ [⟨last.StartedAt, now⟩]⟩).IsActive
        = false := by
  obtain ⟨last, hgl, hz⟩ := hlast
  obtain ⟨init, hinit⟩ := List.getLast?_eq_some_iff.mp hgl
  refine ⟨init, last, hinit, hz, ?_, ?_⟩
  · rw [hstore]
    exact stopActivityCmd_closes_last name rest now pre a post hpre ha init last hinit hz
  · intro clock
    rw [getActivityStats_IsActive]
    have hcount : init.countP (fun s => IsZero s.EndedAt) = 0 := by
      rw [hinit] at hone
      simpa [List.countP_append, IsZero, hz] using hone
    rw [List.countP_eq_zero] at hcount
    simp only [List.any_append, List.any_cons, List.any_nil, Bool.or_false]
    have h1 : init.any (fun s => IsZero s.EndedAt) = false := by
      rw [List.any_eq_false]
      intro s hs
      exact hcount s hs
    have h2 : IsZero now = false := by simpa [IsZero] using hnow
    rw [h1, h2]
    rfl

/-- Witness for the amended C4. -/
theorem stopActivityCmd_only_open_last_witness :
    ∃ init last, ([⟨1, 2⟩, ⟨3, 0⟩] : List Session) = init ++ [last] ∧ last.EndedAt = 0 ∧
      stopActivityCmd ["run"] 9 [⟨"walk", []⟩, ⟨"run", [⟨1, 2⟩, ⟨3, 0⟩]⟩]
        = ⟨none, some ([⟨"walk", []⟩] ++ ⟨"run", init ++ [⟨last.StartedAt, 9⟩]⟩ :: [])⟩ ∧
      ∀ clock, (getActivityStats clock ⟨"run", init ++ [⟨last.StartedAt, 9⟩]⟩).IsActive
        = false :=
  stopActivityCmd_only_open_last [⟨"walk", []⟩, ⟨"run", [⟨1, 2⟩, ⟨3, 0⟩]⟩] "run" [] 9
    (by decide) [⟨"walk", []⟩] ⟨"run", [⟨1, 2⟩, ⟨3, 0⟩]⟩ [] rfl (by decide) rfl (by decide)
    ⟨⟨3, 0⟩, rfl, rfl⟩

/-! ## Create -/

theorem newActivityCmd_duplicate (store : List Activity) (name : String)
    (rest : List String) (h : ∃ a ∈ store, a.Name = name) :
    newActivityCmd (name :: rest) store = ⟨some (alreadyExistsMsg name), none⟩ := by
  have hany : store.any (fun activity => decide (activity.Name = name)) = true := by
    simpa [List.any_eq_true] using h
  simp only [newActivityCmd, hany, if_true]

theorem newActivityCmd_fresh (store : List Activity) (name : String)
    (rest : List String) (h : ∀ a ∈ store, a.Name ≠ name) :
    newActivityCmd (name :: rest) store = ⟨none, some (store ++ [⟨name, []⟩])⟩ := by
  have hany : store.any (fun activity => decide (activity.Name = name)) = false := by
    rw [List.any_eq_false]
    intro a ha
    simpa using h a ha
  simp [newActivityCmd, hany]

/-- C5. Create characterisation: the command fails exactly when some stored
    activity has the given name, and then nothing is saved; otherwise it
    succeeds and saves the loaded list with the activity `(name, no sessions)`
    appended at the end.  Creating a name twice on a store without it leaves
    exactly one activity of that name. -/
theorem newActivityCmd_characterisation (store : List Activity) (name : String)
    (rest : List String) :
    ((newActivityCmd (name :: rest) store).err ≠ none ↔ ∃ a ∈ store, a.Name = name) ∧
    ((∃ a ∈ store, a.Name = name) →
      newActivityCmd (name :: rest) store = ⟨some (alreadyExistsMsg name), none⟩ ∧
      (newActivityCmd (name :: rest) store).store store = store) ∧
    ((∀ a ∈ store, a.Name ≠ name) →
      newActivityCmd (name :: rest) store = ⟨none, some (store ++ [⟨name, []⟩])⟩ ∧
      newActivityCmd (name :: rest) (store ++ [⟨name, []⟩])
        = ⟨some (alreadyExistsMsg name), none⟩ ∧
      run [.create name, .create name] store = store ++ [⟨name, []⟩] ∧
      (run [.create name, .create name] store).countP (fun a => a.Name = name) = 1) := by
  have hdup := newActivityCmd_duplicate store name rest
  have hfresh := newActivityCmd_fresh store name rest
  refine ⟨⟨?_, fun h => by rw [hdup h]; simp⟩, fun h => ⟨hdup h, by rw [hdup h]; rfl⟩, ?_⟩
  · intro herr
    by_contra hno
    have hall : ∀ a ∈ store, a.Name ≠ name := fun a ha hn => hno ⟨a, ha, hn⟩
    rw [hfresh hall] at herr
    exact herr rfl
  · intro hall
    have hsecond : ∃ a ∈ store ++ [⟨name, []⟩], a.Name = name :=
      ⟨⟨name, []⟩, by simp, rfl⟩
    have hrun : run [.create name, .create name] store = store ++ [⟨name, []⟩] := by
      simp [run, Op.exec, newActivityCmd_fresh store name [] hall,
        newActivityCmd_duplicate _ name [] hsecond, Outcome.store]
    refine ⟨hfresh hall, newActivityCmd_duplicate _ name rest hsecond, hrun, ?_⟩
    rw [hrun, List.countP_append]
    have hzero : store.countP (fun a => decide (a.Name = name)) = 0 := by
      rw [List.countP_eq_zero]
      intro a ha
      simpa using hall a ha
    simp [hzero]

/-- Witness for C5: a duplicate name is refused, a name differing only in
    letter case is accepted, and creating "x" twice keeps one "x". -/
theorem newActivityCmd_characterisation_witness :
    (newActivityCmd ["x"] [⟨"walk", []⟩, ⟨"x", [⟨1, 2⟩]⟩]
        = ⟨some (alreadyExistsMsg "x"), none⟩ ∧
      (newActivityCmd ["x"] [⟨"walk", []⟩, ⟨"x", [⟨1, 2⟩]⟩]).store
          [⟨"walk", []⟩, ⟨"x", [⟨1, 2⟩]⟩]
        = [⟨"walk", []⟩, ⟨"x", [⟨1, 2⟩]⟩]) ∧
    (newActivityCmd ["x"] [⟨"walk", []⟩, ⟨"X", []⟩]
        = ⟨none, some ([⟨"walk", []⟩, ⟨"X", []⟩] ++ [⟨"x", []⟩])⟩ ∧
      newActivityCmd ["x"] ([⟨"walk", []⟩, ⟨"X", []⟩] ++ [⟨"x", []⟩])
        = ⟨some (alreadyExistsMsg "x"), none⟩ ∧
      run [.create "x", .create "x"] [⟨"walk", []⟩, ⟨"X", []⟩]
        = [⟨"walk", []⟩, ⟨"X", []⟩] ++ [⟨"x", []⟩] ∧
      (run [.create "x", .create "x"] [⟨"walk", []⟩, ⟨"X", []⟩]).countP
        (fun a => a.Name = "x") = 1) :=
  ⟨(newActivityCmd_characterisation [⟨"walk", []⟩, ⟨"x", [⟨1, 2⟩]⟩] "x" []).2.1
      ⟨⟨"x", [⟨1, 2⟩]⟩, by decide, rfl⟩,
   (newActivityCmd_characterisation [⟨"walk", []⟩, ⟨"X", []⟩] "x" []).2.2 (by decide)⟩

/-- C6, as stated, fails: on the empty store `new-activity ""` is not a
    no-op, it saves a list holding an activity whose name is empty. -/
theorem newActivityCmd_empty_name_counterexample :
    newActivityCmd [""] [] = ⟨none, some [⟨"", []⟩]⟩ ∧
    (newActivityCmd [""] []).store [] ≠ [] ∧
    (∃ a ∈ (newActivityCmd [""] []).store [], a.Name = "") := by
  refine ⟨by decide, by decide, ⟨"", []⟩, by decide, rfl⟩

/-- C6, amended. The silent no-op of `new-activity` is the run without a name
    argument: it succeeds and saves nothing.  The empty string given as the
    name is handled like every other name: it is refused when an activity
    with the empty name is stored and is otherwise appended, so stored names
    are not kept non-empty. -/
theorem newActivityCmd_no_argument_noop (store : List Activity) (rest : List String) :
    newActivityCmd [] store = ⟨none, none⟩ ∧
    (newActivityCmd [] store).store store = store ∧
    ((∀ a ∈ store, a.Name ≠ "") →
      newActivityCmd ("" :: rest) store = ⟨none, some (store ++ [⟨"", []⟩])⟩) ∧
    ((∃ a ∈ store, a.Name = "") →
      newActivityCmd ("" :: rest) store = ⟨some (alreadyExistsMsg ""), none⟩) :=
  ⟨rfl, rfl, newActivityCmd_fresh store "" rest, newActivityCmd_duplicate store "" rest⟩

/-- Witness for the amended C6. -/
theorem newActivityCmd_no_argument_noop_witness :
    newActivityCmd [""] [⟨"walk", []⟩] = ⟨none, some ([⟨"walk", []⟩] ++ [⟨"", []⟩])⟩ ∧
    newActivityCmd [""] [⟨"walk", []⟩, ⟨"", []⟩] = ⟨some (alreadyExistsMsg ""), none⟩ :=
  ⟨(newActivityCmd_no_argument_noop [⟨"walk", []⟩] []).2.2.1 (by decide),
   (newActivityCmd_no_argument_noop [⟨"walk", []⟩, ⟨"", []⟩] []).2.2.2
      ⟨⟨"", []⟩, by decide, rfl⟩⟩

/-! ## Remove -/

theorem removeActivityCmd_absent (store : List Activity) (name : String)
    (rest : List String) (h : ∀ a ∈ store, a.Name ≠ name) :
    removeActivityCmd (name :: rest) store = ⟨none, none⟩ := by
  have hf := (findActivity_eq_none name store).mpr h
  simp [removeActivityCmd, hf]

theorem removeActivityCmd_first (name : String) (rest : List String)
    (pre : List Activity) (a : Activity) (post : List Activity)
    (hpre : ∀ b ∈ pre, b.Name ≠ name) (ha : a.Name = name) :
    removeActivityCmd (name :: rest) (pre ++ a :: post) = ⟨none, some (pre ++ post)⟩ := by
  have hf := findActivity_first name pre a post hpre ha
  have hs := splice_at_split pre a post
  simp only [removeActivityCmd, hf, hs]

/-- C7. Remove never returns an error when it is given a name, and it is a
    stable splice: when some activity has the name, the saved list is the
    loaded list without the first such activity, the others unchanged and in
    their order; when none has the name the command succeeds, saves nothing
    and the store is unchanged. -/
theorem removeActivityCmd_characterisation (store : List Activity) (name : String)
    (rest : List String) :
    (removeActivityCmd (name :: rest) store).err = none ∧
    ((∀ a ∈ store, a.Name ≠ name) →
      removeActivityCmd (name :: rest) store = ⟨none, none⟩ ∧
      (removeActivityCmd (name :: rest) store).store store = store) ∧
    (∀ pre a post, store = pre ++ a :: post → (∀ b ∈ pre, b.Name ≠ name) → a.Name = name →
      removeActivityCmd (name :: rest) store = ⟨none, some (pre ++ post)⟩ ∧
      (removeActivityCmd (name :: rest) store).store store = pre ++ post) := by
  refine ⟨?_, ?_, ?_⟩
  · cases h : findActivity name store with
    | none => simp [removeActivityCmd, h]
    | some p => simp [removeActivityCmd, h]
  · intro h
    rw [removeActivityCmd_absent store name rest h]
    exact ⟨rfl, rfl⟩
  · intro pre a post hstore hpre ha
    rw [hstore, removeActivityCmd_first name rest pre a post hpre ha]
    exact ⟨rfl, rfl⟩

/-- Witness for C7: an absent name, and a name carried by two activities of
    which the first is removed. -/
theorem removeActivityCmd_characterisation_witness :
    (removeActivityCmd ["ghost"] [⟨"walk", []⟩, ⟨"run", [⟨1, 2⟩]⟩] = ⟨none, none⟩ ∧
      (removeActivityCmd ["ghost"] [⟨"walk", []⟩, ⟨"run", [⟨1, 2⟩]⟩]).store
          [⟨"walk", []⟩, ⟨"run", [⟨1, 2⟩]⟩]
        = [⟨"walk", []⟩, ⟨"run", [⟨1, 2⟩]⟩]) ∧
    (removeActivityCmd ["run"] [⟨"walk", []⟩, ⟨"run", [⟨1, 2⟩]⟩, ⟨"read", []⟩, ⟨"run", []⟩]
        = ⟨none, some ([⟨"walk", []⟩] ++ [⟨"read", []⟩, ⟨"run", []⟩])⟩ ∧
      (removeActivityCmd ["run"]
          [⟨"walk", []⟩, ⟨"run", [⟨1, 2⟩]⟩, ⟨"read", []⟩, ⟨"run", []⟩]).store
          [⟨"walk", []⟩, ⟨"run", [⟨1, 2⟩]⟩, ⟨"read", []⟩, ⟨"run", []⟩]
        = [⟨"walk", []⟩] ++ [⟨"read", []⟩, ⟨"run", []⟩]) :=
  ⟨(removeActivityCmd_characterisation [⟨"walk", []⟩, ⟨"run", [⟨1, 2⟩]⟩] "ghost" []).2.1
      (by decide),
   (removeActivityCmd_characterisation
      [⟨"walk", []⟩, ⟨"run", [⟨1, 2⟩]⟩, ⟨"read", []⟩, ⟨"run", []⟩] "run" []).2.2
      [⟨"walk", []⟩] ⟨"run", [⟨1, 2⟩]⟩ [⟨"read", []⟩, ⟨"run", []⟩] rfl (by decide) rfl⟩

/-! ## Runs of operations -/

theorem first_match_cases (name : String) (store : List Activity) :
    (∀ a ∈ store, a.Name ≠ name) ∨
    ∃ pre a post, store = pre ++ a :: post ∧ (∀ b ∈ pre, b.Name ≠ name) ∧ a.Name = name := by
  cases h : findActivity name store with
  | none => exact Or.inl ((findActivity_eq_none name store).mp h)
  | some p =>
    obtain ⟨pre, post, hl, _, hpre, ha⟩ := findActivity_some name store p.1 p.2 h
    exact Or.inr ⟨pre, p.2, post, hl, hpre, ha⟩

theorem startActivityCmd_store_length (args : List String) (now : Time)
    (store : List Activity) :
    ((startActivityCmd args now store).store store).length = store.length := by
  unfold startActivityCmd
  split
  · rfl
  · split
    · rfl
    · split <;> simp [Outcome.store]

theorem stopActivityCmd_store_length (args : List String) (now : Time)
    (store : List Activity) :
    ((stopActivityCmd args now store).store store).length = store.length := by
  unfold stopActivityCmd
  split
  · rfl
  · split
    · rfl
    · split <;> simp [Outcome.store]

theorem renameLoop_length (oldName newName : String) (store : List Activity) :
    (renameLoop oldName newName store).1.length = store.length := by
  induction store with
  | nil => rfl
  | cons a store ih =>
    by_cases h : a.Name = oldName
    · simp [renameLoop, h]
    · simp [renameLoop, h, ih]

theorem renameActivityCmd_store_length (args : List String) (store : List Activity) :
    ((renameActivityCmd args store).store store).length = store.length := by
  unfold renameActivityCmd
  split
  · split
    · simp [Outcome.store, renameLoop_length]
    · rfl
  · rfl

theorem command_exec_store_length (c : Command) (store : List Activity) :
    ((c.exec store).store store).length + (if removedStored c store then 1 else 0)
      = store.length + (if createdWithName c store then 1 else 0) := by
  cases c with
  | newActivity args =>
    cases args with
    | nil => simp [removedStored, createdWithName, Command.exec, newActivityCmd, Outcome.store]
    | cons name rest =>
      rcases first_match_cases name store with h | ⟨pre, a, post, hl, _, ha⟩
      · simp [removedStored, createdWithName, Command.exec,
          newActivityCmd_fresh store name rest h, Outcome.store]
      · have hex : ∃ b ∈ store, b.Name = name := ⟨a, by simp [hl], ha⟩
        simp [removedStored, createdWithName, Command.exec,
          newActivityCmd_duplicate store name rest hex, Outcome.store]
  | start args now =>
    simp [removedStored, createdWithName, Command.exec, startActivityCmd_store_length]
  | stop args now =>
    simp [removedStored, createdWithName, Command.exec, stopActivityCmd_store_length]
  | remove args =>
    cases args with
    | nil => simp [removedStored, createdWithName, Command.exec, removeActivityCmd, Outcome.store]
    | cons name rest =>
      rcases first_match_cases name store with h | ⟨pre, a, post, hl, hpre, ha⟩
      · have hany : store.any (fun activity => decide (activity.Name = name)) = false := by
          rw [List.any_eq_false]
          intro b hb
          simpa using h b hb
        simp [removedStored, createdWithName, Command.exec,
          removeActivityCmd_absent store name rest h, Outcome.store, hany]
      · have hany : store.any (fun activity => decide (activity.Name = name)) = true := by
          rw [List.any_eq_true]
          exact ⟨a, by simp [hl], by simpa using ha⟩
        simp only [removedStored, createdWithName, Command.exec, hany, if_true]
        rw [hl, removeActivityCmd_first name rest pre a post hpre ha]
        simp [Outcome.store]
        omega
  | rename args =>
    simp [removedStored, createdWithName, Command.exec, renameActivityCmd_store_length]

theorem runCommands_length (cs : List Command) (store : List Activity) :
    (runCommands cs store).length + countCommands removedStored cs store
      = store.length + countCommands createdWithName cs store := by
  induction cs generalizing store with
  | nil => simp [runCommands, countCommands]
  | cons c cs ih =>
    have hstep := command_exec_store_length c store
    have hrest := ih ((c.exec store).store store)
    simp only [runCommands, countCommands]
    omega

/-- C8, as stated, fails in two ways.  A `new-activity` run without a name
    argument returns success and stores nothing: after it the empty store
    holds no activity against one successful create.  A `remove` of an absent
    name returns success and deletes nothing: after creating "a" and "b" and
    removing "ghost" two activities are stored against two successful creates
    and one successful remove. -/
theorem runCommands_length_counterexample :
    ((runCommands [.newActivity []] []).length = 0 ∧
      countCommands createReturnedSuccess [.newActivity []] [] = 1 ∧
      countCommands removeReturnedSuccess [.newActivity []] [] = 0 ∧
      ((runCommands [.newActivity []] []).length : Int)
        ≠ (countCommands createReturnedSuccess [.newActivity []] [] : Int)
          - (countCommands removeReturnedSuccess [.newActivity []] [] : Int)) ∧
    ((runCommands [.newActivity ["a"], .newActivity ["b"], .remove ["ghost"]] []).length = 2 ∧
      countCommands createReturnedSuccess
        [.newActivity ["a"], .newActivity ["b"], .remove ["ghost"]] [] = 2 ∧
      countCommands removeReturnedSuccess
        [.newActivity ["a"], .newActivity ["b"], .remove ["ghost"]] [] = 1 ∧
      ((runCommands [.newActivity ["a"], .newActivity ["b"], .remove ["ghost"]] []).length : Int)
        ≠ (countCommands createReturnedSuccess
            [.newActivity ["a"], .newActivity ["b"], .remove ["ghost"]] [] : Int)
          - (countCommands removeReturnedSuccess
            [.newActivity ["a"], .newActivity ["b"], .remove ["ghost"]] [] : Int)) := by
  refine ⟨⟨by decide, by decide, by decide, by decide⟩,
    ⟨by decide, by decide, by decide, by decide⟩⟩

/-- C8, amended. For every finite sequence of command runs, each with any
    argument list, applied to the empty store, the number of stored
    activities afterwards equals the number of `new-activity` runs that were
    given a name argument and returned success minus the number of `remove`
    runs whose name argument was carried by a stored activity when they ran.
    A `new-activity` run without a name argument and a `remove` of an absent
    name also return success, change nothing and are not counted.  The
    sequence may hold `rename` runs as well. -/
theorem runCommands_length_eq_named_creates_minus_effective_removes (cs : List Command) :
    ((runCommands cs []).length : Int)
      = (countCommands createdWithName cs [] : Int)
        - (countCommands removedStored cs [] : Int) := by
  have h := runCommands_length cs []
  simp only [List.length_nil] at h
  omega

/-! ## Rename -/

theorem renameLoop_absent (oldName newName : String) (store : List Activity)
    (h : ∀ a ∈ store, a.Name ≠ oldName) :
    renameLoop oldName newName store = (store, false) := by
  induction store with
  | nil => rfl
  | cons a store ih =>
    have ha : a.Name ≠ oldName := h a (List.mem_cons_self _ _)
    have ih' := ih (fun b hb => h b (List.mem_cons_of_mem _ hb))
    simp [renameLoop, ha, ih']

theorem renameLoop_first (oldName newName : String) (pre : List Activity) (a : Activity)
    (post : List Activity) (hpre : ∀ b ∈ pre, b.Name ≠ oldName) (ha : a.Name = oldName) :
    renameLoop oldName newName (pre ++ a :: post)
      = (pre ++ ⟨newName, a.Sessions⟩ :: post, true) := by
  induction pre with
  | nil => simp [renameLoop, ha]
  | cons b pre ih =>
    have hb : b.Name ≠ oldName := hpre b (List.mem_cons_self _ _)
    have ih' := ih (fun c hc => hpre c (List.mem_cons_of_mem _ hc))
    simp [renameLoop, hb, ih']

theorem renameActivityCmd_absent (store : List Activity) (oldName newName : String)
    (rest : List String) (h : ∀ a ∈ store, a.Name ≠ oldName) :
    renameActivityCmd (oldName :: newName :: rest) store
      = ⟨some (noActivityFoundMsg oldName), none⟩ := by
  simp [renameActivityCmd, renameLoop_absent oldName newName store h]

theorem renameActivityCmd_first (oldName newName : String) (rest : List String)
    (pre : List Activity) (a : Activity) (post : List Activity)
    (hpre : ∀ b ∈ pre, b.Name ≠ oldName) (ha : a.Name = oldName) :
    renameActivityCmd (oldName :: newName :: rest) (pre ++ a :: post)
      = ⟨none, some (pre ++ ⟨newName, a.Sessions⟩ :: post)⟩ := by
  simp [renameActivityCmd, renameLoop_first oldName newName pre a post hpre ha]

/-- C9. Rename characterisation: the command fails exactly when no activity
    is named `oldName`, and then nothing is saved; otherwise it succeeds and
    saves a list of the same length and order in which the first activity
    named `oldName` carries `newName` with its sessions unchanged, and every
    other activity, a later one named `oldName` included, is unchanged. -/
theorem renameActivityCmd_characterisation (store : List Activity)
    (oldName newName : String) (rest : List String) :
    ((renameActivityCmd (oldName :: newName :: rest) store).err ≠ none ↔
      ∀ a ∈ store, a.Name ≠ oldName) ∧
    ((∀ a ∈ store, a.Name ≠ oldName) →
      renameActivityCmd (oldName :: newName :: rest) store
        = ⟨some (noActivityFoundMsg oldName), none⟩ ∧
      (renameActivityCmd (oldName :: newName :: rest) store).store store = store) ∧
    (∀ pre a post, store = pre ++ a :: post → (∀ b ∈ pre, b.Name ≠ oldName) →
      a.Name = oldName →
      renameActivityCmd (oldName :: newName :: rest) store
        = ⟨none, some (pre ++ ⟨newName, a.Sessions⟩ :: post)⟩ ∧
      ((renameActivityCmd (oldName :: newName :: rest) store).store store).length
        = store.length) := by
  have habsent := renameActivityCmd_absent store oldName newName rest
  refine ⟨⟨?_, fun h => by rw [habsent h]; simp⟩, fun h => ⟨habsent h, by rw [habsent h]; rfl⟩,
    ?_⟩
  · intro herr
    rcases first_match_cases oldName store with h | ⟨pre, a, post, hl, hpre, ha⟩
    · exact h
    · rw [hl, renameActivityCmd_first oldName newName rest pre a post hpre ha] at herr
      exact absurd rfl herr
  · intro pre a post hl hpre ha
    rw [hl, renameActivityCmd_first oldName newName rest pre a post hpre ha]
    exact ⟨rfl, by simp [Outcome.store]⟩

/-- Witness for C9: an absent old name, and an old name carried by two
    activities of which only the first is renamed. -/
theorem renameActivityCmd_characterisation_witness :
    (renameActivityCmd ["ghost", "jog"] [⟨"walk", []⟩, ⟨"run", [⟨1, 2⟩]⟩]
        = ⟨some (noActivityFoundMsg "ghost"), none⟩ ∧
      (renameActivityCmd ["ghost", "jog"] [⟨"walk", []⟩, ⟨"run", [⟨1, 2⟩]⟩]).store
          [⟨"walk", []⟩, ⟨"run", [⟨1, 2⟩]⟩]
        = [⟨"walk", []⟩, ⟨"run", [⟨1, 2⟩]⟩]) ∧
    (renameActivityCmd ["run", "jog"]
          [⟨"walk", []⟩, ⟨"run", [⟨1, 2⟩]⟩, ⟨"read", []⟩, ⟨"run", []⟩]
        = ⟨none, some ([⟨"walk", []⟩] ++ ⟨"jog", [⟨1, 2⟩]⟩ :: [⟨"read", []⟩, ⟨"run", []⟩])⟩ ∧
      ((renameActivityCmd ["run", "jog"]
          [⟨"walk", []⟩, ⟨"run", [⟨1, 2⟩]⟩, ⟨"read", []⟩, ⟨"run", []⟩]).store
          [⟨"walk", []⟩, ⟨"run", [⟨1, 2⟩]⟩, ⟨"read", []⟩, ⟨"run", []⟩]).length
        = [⟨"walk", []⟩, ⟨"run", [⟨1, 2⟩]⟩, ⟨"read", []⟩, (⟨"run", []⟩ : Activity)].length) :=
  ⟨(renameActivityCmd_characterisation [⟨"walk", []⟩, ⟨"run", [⟨1, 2⟩]⟩] "ghost" "jog" []).2.1
      (by decide),
   (renameActivityCmd_characterisation
      [⟨"walk", []⟩, ⟨"run", [⟨1, 2⟩]⟩, ⟨"read", []⟩, ⟨"run", []⟩] "run" "jog" []).2.2
      [⟨"walk", []⟩] ⟨"run", [⟨1, 2⟩]⟩ [⟨"read", []⟩, ⟨"run", []⟩] rfl (by decide) rfl⟩

/-- C10. Rename can break name uniqueness: a store with pairwise distinct
    names and two different names `oldName`, `newName` exist such that the
    rename succeeds and the saved list holds two activities of one name. -/
theorem renameActivityCmd_breaks_uniqueness :
    ∃ (store : List Activity) (oldName newName : String),
      (store.map (fun a => a.Name)).Nodup ∧ oldName ≠ newName ∧
      (renameActivityCmd [oldName, newName] store).err = none ∧
      ¬ (((renameActivityCmd [oldName, newName] store).store store).map
          (fun a => a.Name)).Nodup ∧
      ∃ i j, i < j ∧
        (((renameActivityCmd [oldName, newName] store).store store).map
            (fun a => a.Name)).get? i = some newName ∧
        (((renameActivityCmd [oldName, newName] store).store store).map
            (fun a => a.Name)).get? j = some newName :=
  ⟨[⟨"run", [⟨1, 2⟩]⟩, ⟨"walk", []⟩], "run", "walk",
    by decide, by decide, by decide, by decide, 0, 1, by decide, by decide, by decide⟩

/-! ## The shape of one step -/

theorem exec_create_cases (name : String) (store : List Activity) :
    ((∃ a ∈ store, a.Name = name) ∧ ((Op.create name).exec store).store store = store) ∨
    ((∀ a ∈ store, a.Name ≠ name) ∧
      ((Op.create name).exec store).store store = store ++ [⟨name, []⟩]) := by
  rcases first_match_cases name store with h | ⟨pre, a, post, hl, _, ha⟩
  · right
    exact ⟨h, by simp [Op.exec, newActivityCmd_fresh store name [] h, Outcome.store]⟩
  · left
    have hex : ∃ b ∈ store, b.Name = name := ⟨a, by simp [hl], ha⟩
    exact ⟨hex, by simp [Op.exec, newActivityCmd_duplicate store name [] hex, Outcome.store]⟩

theorem exec_start_cases (name : String) (now : Time) (store : List Activity) :
    ((Op.start name now).exec store).store store = store ∨
    ∃ pre a post, store = pre ++ a :: post ∧ (∀ b ∈ pre, b.Name ≠ name) ∧ a.Name = name ∧
      lastIsUnfinished a.Sessions = false ∧
      ((Op.start name now).exec store).store store
        = pre ++ ⟨a.Name, a.Sessions ++ [⟨now, 0⟩]⟩ :: post := by
  rcases first_match_cases name store with h | ⟨pre, a, post, hl, hpre, ha⟩
  · left
    have hf := (findActivity_eq_none name store).mpr h
    simp [Op.exec, startActivityCmd, hf, Outcome.store]
  · have hf := findActivity_first name pre a post hpre ha
    cases hlast : lastIsUnfinished a.Sessions with
    | true =>
      left
      simp [Op.exec, startActivityCmd, hl, hf, hlast, Outcome.store]
    | false =>
      right
      refine ⟨pre, a, post, hl, hpre, ha, hlast, ?_⟩
      simp [Op.exec, startActivityCmd, hl, hf, hlast, Outcome.store, set_at_split]

theorem exec_stop_cases (name : String) (now : Time) (store : List Activity) :
    ((Op.stop name now).exec store).store store = store ∨
    ∃ pre a post init last, store = pre ++ a :: post ∧ (∀ b ∈ pre, b.Name ≠ name) ∧
      a.Name = name ∧ a.Sessions = init ++ [last] ∧ last.EndedAt = 0 ∧
      ((Op.stop name now).exec store).store store
        = pre ++ ⟨a.Name, init ++ [⟨last.StartedAt, now⟩]⟩ :: post := by
  rcases first_match_cases name store with h | ⟨pre, a, post, hl, hpre, ha⟩
  · left
    have hf := (findActivity_eq_none name store).mpr h
    simp [Op.exec, stopActivityCmd, hf, Outcome.store]
  · have hf := findActivity_first name pre a post hpre ha
    cases hlast : lastIsUnfinished a.Sessions with
    | false =>
      left
      simp [Op.exec, stopActivityCmd, hl, hf, hlast, Outcome.store]
    | true =>
      right
      obtain ⟨last, hgl, hz⟩ := (lastIsUnfinished_iff a.Sessions).mp hlast
      obtain ⟨init, hinit⟩ := List.getLast?_eq_some_iff.mp hgl
      refine ⟨pre, a, post, init, last, hl, hpre, ha, hinit, hz, ?_⟩
      simp only [Op.exec]
      rw [hl, stopActivityCmd_closes_last name [] now pre a post hpre ha init last hinit hz]
      rfl

theorem exec_remove_cases (name : String) (store : List Activity) :
    ((∀ a ∈ store, a.Name ≠ name) ∧ ((Op.remove name).exec store).store store = store) ∨
    ∃ pre a post, store = pre ++ a :: post ∧ (∀ b ∈ pre, b.Name ≠ name) ∧ a.Name = name ∧
      ((Op.remove name).exec store).store store = pre ++ post := by
  rcases first_match_cases name store with h | ⟨pre, a, post, hl, hpre, ha⟩
  · left
    exact ⟨h, by simp [Op.exec, removeActivityCmd_absent store name [] h, Outcome.store]⟩
  · right
    refine ⟨pre, a, post, hl, hpre, ha, ?_⟩
    simp only [Op.exec]
    rw [hl, removeActivityCmd_first name [] pre a post hpre ha]
    rfl

theorem exec_rename_cases (oldName newName : String) (store : List Activity) :
    ((Op.rename oldName newName).exec store).store store = store ∨
    ∃ pre a post, store = pre ++ a :: post ∧ (∀ b ∈ pre, b.Name ≠ oldName) ∧
      a.Name = oldName ∧
      ((Op.rename oldName newName).exec store).store store
        = pre ++ ⟨newName, a.Sessions⟩ :: post := by
  rcases first_match_cases oldName store with h | ⟨pre, a, post, hl, hpre, ha⟩
  · left
    simp [Op.exec, renameActivityCmd_absent store oldName newName [] h, Outcome.store]
  · right
    refine ⟨pre, a, post, hl, hpre, ha, ?_⟩
    simp only [Op.exec]
    rw [hl, renameActivityCmd_first oldName newName [] pre a post hpre ha]
    rfl

theorem mem_split_replace {x a b : Activity} {pre post : List Activity}
    (h : x ∈ pre ++ b :: post) : x = b ∨ x ∈ pre ++ a :: post := by
  simp only [List.mem_append, List.mem_cons] at h ⊢
  tauto

/-- One step carries a property of session lists from `P` to `Q` when the
    empty list, the appended session of `start` and the closed session of
    `stop` do. -/
theorem exec_sessions (P Q : List Session → Prop) (op : Op) (hPQ : ∀ l, P l → Q l)
    (hnil : Q [])
    (hstart : ∀ l now, op.clock = some now → P l → lastIsUnfinished l = false →
      Q (l ++ [⟨now, 0⟩]))
    (hstop : ∀ init last now, op.clock = some now → P (init ++ [last]) → last.EndedAt = 0 →
      Q (init ++ [⟨last.StartedAt, now⟩]))
    (store : List Activity) (hinv : ∀ a ∈ store, P a.Sessions) :
    ∀ a ∈ (op.exec store).store store, Q a.Sessions := by
  have hold : ∀ a ∈ store, Q a.Sessions := fun a ha => hPQ _ (hinv a ha)
  cases op with
  | create name =>
    rcases exec_create_cases name store with ⟨_, h⟩ | ⟨_, h⟩
    · rw [h]; exact hold
    · rw [h]
      intro a ha
      rcases List.mem_append.mp ha with ha | ha
      · exact hold a ha
      · simp only [List.mem_singleton] at ha
        rw [ha]; exact hnil
  | start name now =>
    rcases exec_start_cases name now store with h | ⟨pre, a, post, hl, _, _, hlast, h⟩
    · rw [h]; exact hold
    · rw [h]
      intro x hx
      rcases mem_split_replace (a := a) hx with rfl | hx
      · exact hstart a.Sessions now rfl (hinv a (by simp [hl])) hlast
      · rw [← hl] at hx; exact hold x hx
  | stop name now =>
    rcases exec_stop_cases name now store with h | ⟨pre, a, post, init, last, hl, _, _, hs, hz, h⟩
    · rw [h]; exact hold
    · rw [h]
      intro x hx
      rcases mem_split_replace (a := a) hx with rfl | hx
      · have hP := hinv a (by simp [hl])
        rw [hs] at hP
        exact hstop init last now rfl hP hz
      · rw [← hl] at hx; exact hold x hx
  | remove name =>
    rcases exec_remove_cases name store with ⟨_, h⟩ | ⟨pre, a, post, hl, _, _, h⟩
    · rw [h]; exact hold
    · rw [h]
      intro x hx
      apply hold x
      rw [hl]
      simp only [List.mem_append, List.mem_cons] at hx ⊢
      tauto
  | rename oldName newName =>
    rcases exec_rename_cases oldName newName store with h | ⟨pre, a, post, hl, _, _, h⟩
    · rw [h]; exact hold
    · rw [h]
      intro x hx
      rcases mem_split_replace (a := a) hx with rfl | hx
      · exact hold a (by simp [hl])
      · rw [← hl] at hx; exact hold x hx

/-! ## The open-session invariant -/

theorem all_closed_of_last_closed (l : List Session) (h : openOnlyLast l)
    (hlast : lastIsUnfinished l = false) : ∀ s ∈ l, s.EndedAt ≠ 0 := by
  intro s hs hz
  rcases List.eq_nil_or_concat l with rfl | ⟨init, last, rfl⟩
  · simp at hs
  · rw [List.concat_eq_append] at hs h hlast
    simp only [openOnlyLast, List.dropLast_concat] at h
    rcases List.mem_append.mp hs with hs | hs
    · exact h s hs hz
    · simp only [List.mem_singleton] at hs
      subst hs
      simp [lastIsUnfinished, IsZero, hz] at hlast

theorem openOnlyLast_start (l : List Session) (now : Time) (h : openOnlyLast l)
    (hlast : lastIsUnfinished l = false) : openOnlyLast (l ++ [⟨now, 0⟩]) := by
  simp only [openOnlyLast, List.dropLast_concat]
  exact all_closed_of_last_closed l h hlast

theorem openOnlyLast_stop (init : List Session) (last : Session) (now : Time)
    (h : openOnlyLast (init ++ [last])) :
    openOnlyLast (init ++ [⟨last.StartedAt, now⟩]) := by
  simp only [openOnlyLast, List.dropLast_concat] at h ⊢
  exact h

theorem run_openOnlyLast (ops : List Op) (store : List Activity)
    (hinv : ∀ a ∈ store, openOnlyLast a.Sessions) :
    ∀ a ∈ run ops store, openOnlyLast a.Sessions := by
  induction ops generalizing store with
  | nil => exact hinv
  | cons op ops ih =>
    apply ih
    exact exec_sessions openOnlyLast openOnlyLast op (fun _ h => h)
      (by simp [openOnlyLast])
      (fun l now _ h hlast => openOnlyLast_start l now h hlast)
      (fun init last now _ h _ => openOnlyLast_stop init last now h) store hinv

theorem openOnlyLast_position (l : List Session) (h : openOnlyLast l)
    (init : List Session) (s : Session) (tail : List Session)
    (hl : l = init ++ s :: tail) (hz : s.EndedAt = 0) : tail = [] := by
  cases tail with
  | nil => rfl
  | cons t tl =>
    exfalso
    apply h s _ hz
    rw [hl, List.dropLast_append_cons]
    simp

theorem openOnlyLast_count (l : List Session) (h : openOnlyLast l) :
    l.countP (fun s => IsZero s.EndedAt) ≤ 1 := by
  rcases List.eq_nil_or_concat l with rfl | ⟨init, last, rfl⟩
  · simp
  · rw [List.concat_eq_append] at h ⊢
    simp only [openOnlyLast, List.dropLast_concat] at h
    have hzero : init.countP (fun s => IsZero s.EndedAt) = 0 := by
      rw [List.countP_eq_zero]
      intro s hs
      simpa [IsZero] using h s hs
    rw [List.countP_append, hzero]
    simp only [List.countP_cons, List.countP_nil]
    split <;> omega

/-- C11. Open-session invariant: in every store reached from the empty store
    by a sequence of create, start, stop, remove and rename operations, each
    activity has at most one session with an unset `EndedAt`, and a session
    with an unset `EndedAt` has no session behind it.  The clock readings of
    the operations are arbitrary, so in particular they may be non-zero. -/
theorem run_open_session_invariant (ops : List Op) (a : Activity)
    (ha : a ∈ run ops []) :
    a.Sessions.countP (fun s => IsZero s.EndedAt) ≤ 1 ∧
    ∀ init s tail, a.Sessions = init ++ s :: tail → s.EndedAt = 0 → tail = [] := by
  have h := run_openOnlyLast ops [] (by simp) a ha
  exact ⟨openOnlyLast_count _ h, fun init s tail hl hz =>
    openOnlyLast_position _ h init s tail hl hz⟩

/-- Witness for C11: a run that leaves one activity with a closed and an open
    session. -/
theorem run_open_session_invariant_witness :
    (⟨"jog", [⟨1, 2⟩, ⟨3, 0⟩]⟩ : Activity) ∈
        run [.create "run", .start "run" 1, .stop "run" 2, .rename "run" "jog",
          .start "jog" 3, .start "jog" 4] [] ∧
    ([⟨1, 2⟩, ⟨3, 0⟩] : List Session).countP (fun s => IsZero s.EndedAt) ≤ 1 ∧
    ∀ init s tail, ([⟨1, 2⟩, ⟨3, 0⟩] : List Session) = init ++ s :: tail →
      s.EndedAt = 0 → tail = [] :=
  ⟨by decide,
   run_open_session_invariant
    [.create "run", .start "run" 1, .stop "run" 2, .rename "run" "jog",
      .start "jog" 3, .start "jog" 4] ⟨"jog", [⟨1, 2⟩, ⟨3, 0⟩]⟩ (by decide)⟩

/-! ## The interval invariant -/

theorem chronological_start (l : List Session) (now : Time) (h : chronological l)
    (hnow : notAfter l now) (hlast : lastIsUnfinished l = false) :
    chronological (l ++ [⟨now, 0⟩]) := by
  obtain ⟨hclosed, hchain⟩ := h
  constructor
  · intro s hs hz
    rcases List.mem_append.mp hs with hs | hs
    · exact hclosed s hs hz
    · simp only [List.mem_singleton] at hs
      subst hs
      exact absurd rfl hz
  · rw [List.chain'_append]
    refine ⟨hchain, List.chain'_singleton _, ?_⟩
    intro x hx y hy
    simp only [List.head?_cons, Option.mem_def, Option.some.injEq] at hy
    subst hy
    have hx' : l.getLast? = some x := hx
    have hxl : x ∈ l := List.mem_of_getLast?_eq_some hx'
    have hne : x.EndedAt ≠ 0 := by
      intro hz
      simp [lastIsUnfinished, hx', IsZero, hz] at hlast
    exact ⟨hne, hclosed x hxl hne, (hnow x hxl).2 hne⟩

theorem chronological_stop (init : List Session) (last : Session) (now : Time)
    (h : chronological (init ++ [last])) (hnow : notAfter (init ++ [last]) now) :
    chronological (init ++ [⟨last.StartedAt, now⟩]) := by
  obtain ⟨hclosed, hchain⟩ := h
  rw [List.chain'_append] at hchain
  obtain ⟨hinit, _, hlink⟩ := hchain
  constructor
  · intro s hs hz
    rcases List.mem_append.mp hs with hs | hs
    · exact hclosed s (List.mem_append_left _ hs) hz
    · simp only [List.mem_singleton] at hs
      subst hs
      exact (hnow last (by simp)).1
  · rw [List.chain'_append]
    refine ⟨hinit, List.chain'_singleton _, ?_⟩
    intro x hx y hy
    simp only [List.head?_cons, Option.mem_def, Option.some.injEq] at hy
    subst hy
    exact hlink x hx last (by simp)

theorem notAfter_start (l : List Session) (now t : Time) (h : notAfter l t)
    (hle : now ≤ t) : notAfter (l ++ [⟨now, 0⟩]) t := by
  intro s hs
  rcases List.mem_append.mp hs with hs | hs
  · exact h s hs
  · simp only [List.mem_singleton] at hs
    subst hs
    exact ⟨hle, fun hz => absurd rfl hz⟩

theorem notAfter_stop (init : List Session) (last : Session) (now t : Time)
    (h : notAfter (init ++ [last]) t) (hle : now ≤ t) :
    notAfter (init ++ [⟨last.StartedAt, now⟩]) t := by
  intro s hs
  rcases List.mem_append.mp hs with hs | hs
  · exact h s (List.mem_append_left _ hs)
  · simp only [List.mem_singleton] at hs
    subst hs
    exact ⟨(h last (by simp)).1, fun _ => hle⟩

theorem clockReadings_cons_of_clock (op : Op) (ops : List Op) (now : Time)
    (h : op.clock = some now) : clockReadings (op :: ops) = now :: clockReadings ops := by
  simp [clockReadings, List.filterMap_cons, h]

theorem clockReadings_cons_subset (op : Op) (ops : List Op) (t : Time)
    (h : t ∈ clockReadings ops) : t ∈ clockReadings (op :: ops) := by
  unfold clockReadings at h ⊢
  rw [List.filterMap_cons]
  cases op.clock with
  | none => exact h
  | some now => exact List.mem_cons_of_mem _ h

theorem clockReadings_cons_pairwise (op : Op) (ops : List Op)
    (h : (clockReadings (op :: ops)).Pairwise (fun s t => s ≤ t)) :
    (clockReadings ops).Pairwise (fun s t => s ≤ t) := by
  unfold clockReadings at h ⊢
  rw [List.filterMap_cons] at h
  cases hc : op.clock with
  | none => simpa [hc] using h
  | some now =>
    rw [hc] at h
    exact (List.pairwise_cons.mp h).2

theorem run_chronological (ops : List Op) (store : List Activity)
    (hsorted : (clockReadings ops).Pairwise (fun s t => s ≤ t))
    (hinv : ∀ a ∈ store,
      chronological a.Sessions ∧ ∀ t ∈ clockReadings ops, notAfter a.Sessions t) :
    ∀ a ∈ run ops store, chronological a.Sessions := by
  induction ops generalizing store with
  | nil => exact fun a ha => (hinv a ha).1
  | cons op ops ih =>
    apply ih _ (clockReadings_cons_pairwise op ops hsorted)
    apply exec_sessions
      (fun l => chronological l ∧ ∀ t ∈ clockReadings (op :: ops), notAfter l t)
      (fun l => chronological l ∧ ∀ t ∈ clockReadings ops, notAfter l t) op
    · intro l hl
      exact ⟨hl.1, fun t ht => hl.2 t (clockReadings_cons_subset op ops t ht)⟩
    · exact ⟨⟨by simp, List.chain'_nil⟩, fun t _ s hs => by simp at hs⟩
    · intro l now hc hl hlast
      have hcons := clockReadings_cons_of_clock op ops now hc
      have hnow : notAfter l now := hl.2 now (by rw [hcons]; exact List.mem_cons_self _ _)
      refine ⟨chronological_start l now hl.1 hnow hlast, fun t ht => ?_⟩
      rw [hcons] at hsorted
      exact notAfter_start l now t (hl.2 t (clockReadings_cons_subset op ops t ht))
        ((List.pairwise_cons.mp hsorted).1 t ht)
    · intro init last now hc hl _
      have hcons := clockReadings_cons_of_clock op ops now hc
      have hnow : notAfter (init ++ [last]) now :=
        hl.2 now (by rw [hcons]; exact List.mem_cons_self _ _)
      refine ⟨chronological_stop init last now hl.1 hnow, fun t ht => ?_⟩
      rw [hcons] at hsorted
      exact notAfter_stop init last now t (hl.2 t (clockReadings_cons_subset op ops t ht))
        ((List.pairwise_cons.mp hsorted).1 t ht)
    · exact hinv

/-- C12. Interval invariant: in every store reached from the empty store by
    operations whose successive clock readings are non-decreasing, every
    session with `EndedAt` set has `EndedAt >= StartedAt`, every session in
    front of another one is closed and ends no later than the next one
    starts, and so the sessions of an activity are ordered by their start.
    Readings equal to zero need not be excluded for this. -/
theorem run_interval_invariant (ops : List Op)
    (hclock : (clockReadings ops).Chain' (fun s t => s ≤ t)) (a : Activity)
    (ha : a ∈ run ops []) :
    (∀ s ∈ a.Sessions, s.EndedAt ≠ 0 → s.StartedAt ≤ s.EndedAt) ∧
    List.Chain' (fun s t => s.EndedAt ≠ 0 ∧ s.EndedAt ≤ t.StartedAt) a.Sessions ∧
    List.Chain' (fun s t => s.StartedAt ≤ t.StartedAt) a.Sessions := by
  have hsorted : (clockReadings ops).Pairwise (fun s t => s ≤ t) :=
    List.chain'_iff_pairwise.mp hclock
  have h := run_chronological ops [] hsorted (by simp) a ha
  refine ⟨h.1, h.2.imp (fun s t hst => ⟨hst.1, hst.2.2⟩), h.2.imp (fun s t hst => ?_)⟩
  exact le_trans hst.2.1 hst.2.2

/-- Witness for C12: a run with the clock readings 1, 2, 3, 4. -/
theorem run_interval_invariant_witness :
    (∀ s ∈ ([⟨1, 2⟩, ⟨3, 0⟩] : List Session), s.EndedAt ≠ 0 → s.StartedAt ≤ s.EndedAt) ∧
    List.Chain' (fun s t => s.EndedAt ≠ 0 ∧ s.EndedAt ≤ t.StartedAt)
      ([⟨1, 2⟩, ⟨3, 0⟩] : List Session) ∧
    List.Chain' (fun s t => s.StartedAt ≤ t.StartedAt) ([⟨1, 2⟩, ⟨3, 0⟩] : List Session) :=
  run_interval_invariant
    [.create "run", .start "run" 1, .stop "run" 2, .rename "run" "jog",
      .start "jog" 3, .start "jog" 4]
    (by simp [clockReadings, Op.clock]) ⟨"jog", [⟨1, 2⟩, ⟨3, 0⟩]⟩ (by decide)

/-! ## Statistics -/

theorem foldl_statsStep_totalDuration (now : Time) (sessions : List Session)
    (acc : StatsAcc) :
    (sessions.foldl (statsStep now) acc).totalDuration
      = acc.totalDuration + (sessions.map (fun s =>
          if s.EndedAt = 0 then now - s.StartedAt else s.EndedAt - s.StartedAt)).sum := by
  induction sessions generalizing acc with
  | nil => simp
  | cons s sessions ih =>
    rw [List.foldl_cons, ih]
    by_cases hs : s.EndedAt = 0
    · simp [statsStep, IsZero, hs, add_assoc]
    · simp [statsStep, IsZero, hs, add_assoc]

theorem foldl_statsStep_activeSince_closed (now : Time) (sessions : List Session)
    (acc : StatsAcc) (h : ∀ s ∈ sessions, s.EndedAt ≠ 0) :
    (sessions.foldl (statsStep now) acc).activeSince = acc.activeSince := by
  induction sessions generalizing acc with
  | nil => rfl
  | cons s sessions ih =>
    have hs : s.EndedAt ≠ 0 := h s (List.mem_cons_self _ _)
    rw [List.foldl_cons, ih _ (fun t ht => h t (List.mem_cons_of_mem _ ht))]
    simp [statsStep, IsZero, hs]

/-- C13. Total duration: the total that `getActivityStats` accumulates is the
    sum over the sessions of `EndedAt - StartedAt` for a session with
    `EndedAt` set and of `now - StartedAt` for a session with `EndedAt`
    unset, in exact integer nanoseconds; it is zero for an activity without
    sessions. -/
theorem getActivityStats_TotalDuration (now : Time) (activity : Activity) :
    (getActivityStats now activity).TotalDuration
      = (activity.Sessions.map (fun s =>
          if s.EndedAt = 0 then now - s.StartedAt else s.EndedAt - s.StartedAt)).sum ∧
    ∀ name, (getActivityStats now ⟨name, []⟩).TotalDuration = 0 := by
  constructor
  · simp [getActivityStats, foldl_statsStep_totalDuration]
  · intro name
    rfl

/-- C15. Active status: `getActivityStats` reports `IsActive = true` exactly
    when some session, at any position, has an unset `EndedAt`; when exactly
    one session is open, the reported `ActiveSince` is the `StartedAt` of
    that session; an activity without sessions is not active. -/
theorem getActivityStats_active (now : Time) (activity : Activity) :
    ((getActivityStats now activity).IsActive = true ↔
      ∃ s ∈ activity.Sessions, s.EndedAt = 0) ∧
    (∀ init s tail, activity.Sessions = init ++ s :: tail → s.EndedAt = 0 →
      (∀ t ∈ init, t.EndedAt ≠ 0) → (∀ t ∈ tail, t.EndedAt ≠ 0) →
      (getActivityStats now activity).ActiveSince = s.StartedAt) ∧
    ∀ name, (getActivityStats now ⟨name, []⟩).IsActive = false := by
  refine ⟨?_, ?_, fun name => rfl⟩
  · rw [getActivityStats_IsActive, List.any_eq_true]
    simp [IsZero]
  · intro init s tail hl hz _ htail
    simp only [getActivityStats, hl, List.foldl_append, List.foldl_cons]
    rw [foldl_statsStep_activeSince_closed now tail _ htail]
    simp [statsStep, IsZero, hz]

/-- Witness for C15: the one open session stands between two closed ones. -/
theorem getActivityStats_active_witness :
    (getActivityStats 9 ⟨"run", [⟨1, 2⟩, ⟨3, 0⟩, ⟨5, 6⟩]⟩).ActiveSince = 3 :=
  (getActivityStats_active 9 ⟨"run", [⟨1, 2⟩, ⟨3, 0⟩, ⟨5, 6⟩]⟩).2.1
    [⟨1, 2⟩] ⟨3, 0⟩ [⟨5, 6⟩] rfl rfl (by decide) (by decide)

/-! ## The log listing -/

theorem foldl_log_eq (store acc : List Activity) :
    store.foldl
      (fun unfinishedActivities activity =>
        if lastIsUnfinished activity.Sessions then unfinishedActivities ++ [activity]
        else unfinishedActivities)
      acc
      = acc ++ store.filter (fun a => lastIsUnfinished a.Sessions) := by
  induction store generalizing acc with
  | nil => simp
  | cons a store ih =>
    rw [List.foldl_cons, ih]
    cases h : lastIsUnfinished a.Sessions with
    | true => simp [List.filter_cons, h]
    | false => simp [List.filter_cons, h]

theorem logActivitiesCmd_eq_filter (store : List Activity) :
    logActivitiesCmd store = store.filter (fun a => lastIsUnfinished a.Sessions) := by
  unfold logActivitiesCmd
  rw [foldl_log_eq]
  rfl

theorem any_open_eq_last_open (l : List Session) (h : openOnlyLast l) :
    l.any (fun s => IsZero s.EndedAt) = lastIsUnfinished l := by
  rcases List.eq_nil_or_concat l with rfl | ⟨init, last, rfl⟩
  · rfl
  · rw [List.concat_eq_append] at h ⊢
    simp only [openOnlyLast, List.dropLast_concat] at h
    have hinit : init.any (fun s => IsZero s.EndedAt) = false := by
      rw [List.any_eq_false]
      intro s hs
      simpa [IsZero] using h s hs
    simp [List.any_append, hinit, lastIsUnfinished]

/-- C17. The log listing is the stored list filtered, in stored order, to the
    activities whose last session has an unset `EndedAt`; on every store
    reached from the empty store by create, start, stop, remove and rename
    operations a stored activity is listed exactly when `getActivityStats`
    reports it active; on an arbitrary store the two can differ. -/
theorem logActivitiesCmd_agrees_with_stats :
    (∀ store, logActivitiesCmd store = store.filter (fun a => lastIsUnfinished a.Sessions)) ∧
    (∀ store a, a ∈ logActivitiesCmd store ↔
      a ∈ store ∧ ∃ last, a.Sessions.getLast? = some last ∧ last.EndedAt = 0) ∧
    (∀ ops a now, a ∈ run ops [] →
      (a ∈ logActivitiesCmd (run ops []) ↔ (getActivityStats now a).IsActive = true)) ∧
    (∃ store a now, a ∈ store ∧ a ∉ logActivitiesCmd store ∧
      (getActivityStats now a).IsActive = true) := by
  refine ⟨logActivitiesCmd_eq_filter, ?_, ?_, ?_⟩
  · intro store a
    rw [logActivitiesCmd_eq_filter, List.mem_filter, lastIsUnfinished_iff]
  · intro ops a now ha
    have hinv := run_openOnlyLast ops [] (by simp) a ha
    rw [logActivitiesCmd_eq_filter, List.mem_filter, getActivityStats_IsActive,
      any_open_eq_last_open _ hinv]
    exact ⟨fun h => h.2, fun h => ⟨ha, h⟩⟩
  · exact ⟨[⟨"run", [⟨1, 0⟩, ⟨2, 3⟩]⟩], ⟨"run", [⟨1, 0⟩, ⟨2, 3⟩]⟩, 9, by decide, by decide,
      by decide⟩

/-- Witness for C17: after a run, the activity with an open last session is
    listed and reported active. -/
theorem logActivitiesCmd_agrees_with_stats_witness :
    ((⟨"jog", [⟨1, 2⟩, ⟨3, 0⟩]⟩ : Activity) ∈
        logActivitiesCmd (run [.create "run", .start "run" 1, .stop "run" 2,
          .rename "run" "jog", .start "jog" 3, .create "walk"] []) ↔
      (getActivityStats 9 ⟨"jog", [⟨1, 2⟩, ⟨3, 0⟩]⟩).IsActive = true) :=
  logActivitiesCmd_agrees_with_stats.2.2.1
    [.create "run", .start "run" 1, .stop "run" 2, .rename "run" "jog", .start "jog" 3,
      .create "walk"]
    ⟨"jog", [⟨1, 2⟩, ⟨3, 0⟩]⟩ 9 (by decide)

/-! ## Name uniqueness -/

theorem exec_names_nodup (op : Op) (store : List Activity) (hop : op.notRename = true)
    (h : (store.map (fun a => a.Name)).Nodup) :
    (((op.exec store).store store).map (fun a => a.Name)).Nodup := by
  cases op with
  | create name =>
    rcases exec_create_cases name store with ⟨_, e⟩ | ⟨hfresh, e⟩
    · rw [e]; exact h
    · rw [e, List.map_append, List.nodup_append]
      refine ⟨h, by simp, ?_⟩
      intro n hn hn'
      simp only [List.map_cons, List.map_nil, List.mem_singleton] at hn'
      obtain ⟨a, ha, rfl⟩ := List.mem_map.mp hn
      exact hfresh a ha hn'
  | start name now =>
    rcases exec_start_cases name now store with e | ⟨pre, a, post, hl, _, _, _, e⟩
    · rw [e]; exact h
    · rw [e]
      rw [hl] at h
      simpa using h
  | stop name now =>
    rcases exec_stop_cases name now store with e | ⟨pre, a, post, init, last, hl, _, _, _, _, e⟩
    · rw [e]; exact h
    · rw [e]
      rw [hl] at h
      simpa using h
  | remove name =>
    rcases exec_remove_cases name store with ⟨_, e⟩ | ⟨pre, a, post, hl, _, _, e⟩
    · rw [e]; exact h
    · rw [e]
      rw [hl] at h
      refine h.sublist (List.Sublist.map _ ?_)
      exact List.Sublist.append (List.Sublist.refl pre) (List.sublist_cons_self a post)
  | rename oldName newName => simp [Op.notRename] at hop

theorem run_names_nodup (ops : List Op) (store : List Activity)
    (hops : ∀ op ∈ ops, op.notRename = true) (h : (store.map (fun a => a.Name)).Nodup) :
    ((run ops store).map (fun a => a.Name)).Nodup := by
  induction ops generalizing store with
  | nil => exact h
  | cons op ops ih =>
    exact ih _ (fun o ho => hops o (List.mem_cons_of_mem _ ho))
      (exec_names_nodup op store (hops op (List.mem_cons_self _ _)) h)

theorem remove_leaves_no_name (name : String) (store : List Activity)
    (h : (store.map (fun a => a.Name)).Nodup) :
    ∀ a ∈ ((Op.remove name).exec store).store store, a.Name ≠ name := by
  rcases exec_remove_cases name store with ⟨habsent, e⟩ | ⟨pre, a, post, hl, hpre, ha, e⟩
  · rw [e]; exact habsent
  · rw [e]
    intro x hx hxn
    rcases List.mem_append.mp hx with hx | hx
    · exact hpre x hx hxn
    · rw [hl, List.map_append, List.map_cons] at h
      have hnot := (List.nodup_cons.mp (List.nodup_append.mp h).2.1).1
      apply hnot
      rw [ha, ← hxn]
      exact List.mem_map.mpr ⟨x, hx, rfl⟩

/-- C18. Name uniqueness is kept by every operation other than rename: on a
    store with pairwise distinct names the list saved by a create, start,
    stop or remove has pairwise distinct names; hence every store reached
    from the empty store without rename has unique names, and after a remove
    of `name` on such a store no activity named `name` is left. -/
theorem names_stay_unique_without_rename :
    (∀ (op : Op) (store saved : List Activity), op.notRename = true →
      (store.map (fun a => a.Name)).Nodup → (op.exec store).saved = some saved →
      (saved.map (fun a => a.Name)).Nodup) ∧
    (∀ ops : List Op, (∀ op ∈ ops, op.notRename = true) →
      ((run ops []).map (fun a => a.Name)).Nodup) ∧
    (∀ (ops : List Op) (name : String), (∀ op ∈ ops, op.notRename = true) →
      ∀ a ∈ ((Op.remove name).exec (run ops [])).store (run ops []), a.Name ≠ name) := by
  refine ⟨?_, ?_, ?_⟩
  · intro op store saved hop h hsaved
    have hn := exec_names_nodup op store hop h
    simpa [Outcome.store, hsaved] using hn
  · intro ops hops
    exact run_names_nodup ops [] hops (by simp)
  · intro ops name hops
    exact remove_leaves_no_name name _ (run_names_nodup ops [] hops (by simp))

/-- Witness for C18: a run without rename, followed by a remove. -/
theorem names_stay_unique_without_rename_witness :
    ((run [.create "run", .create "walk", .start "run" 1, .create "run", .remove "walk",
        .create "read"] []).map (fun a => a.Name)).Nodup ∧
    (([⟨"run", []⟩, ⟨"walk", []⟩, ⟨"read", []⟩] : List Activity).map
        (fun a => a.Name)).Nodup ∧
    ∀ a ∈ ((Op.remove "run").exec
        (run [.create "run", .create "walk", .start "run" 1, .create "run", .remove "walk",
          .create "read"] [])).store
        (run [.create "run", .create "walk", .start "run" 1, .create "run", .remove "walk",
          .create "read"] []), a.Name ≠ "run" :=
  ⟨names_stay_unique_without_rename.2.1
      [.create "run", .create "walk", .start "run" 1, .create "run", .remove "walk",
        .create "read"] (by decide),
   names_stay_unique_without_rename.1 (.create "read") [⟨"run", []⟩, ⟨"walk", []⟩]
      [⟨"run", []⟩, ⟨"walk", []⟩, ⟨"read", []⟩] (by decide) (by decide) (by decide),
   names_stay_unique_without_rename.2.2
      [.create "run", .create "walk", .start "run" 1, .create "run", .remove "walk",
        .create "read"] "run" (by decide)⟩

/-! ## Rounding to `float64` -/

theorem roundHalfEven_intCast (n : Int) : roundHalfEven (n : ℚ) = n := by
  simp [roundHalfEven]

theorem roundHalfEven_floor_le (q : ℚ) : ⌊q⌋ ≤ roundHalfEven q := by
  unfold roundHalfEven
  split_ifs <;> omega

theorem roundHalfEven_error (q : ℚ) : |(roundHalfEven q : ℚ) - q| ≤ 1 / 2 := by
  have h1 : (⌊q⌋ : ℚ) ≤ q := Int.floor_le q
  have h2 : q < ⌊q⌋ + 1 := Int.lt_floor_add_one q
  unfold roundHalfEven
  rw [abs_le]
  split_ifs with ha hb hc
  · constructor <;> linarith
  · push_cast; constructor <;> linarith
  · constructor <;> linarith
  · push_cast; constructor <;> linarith

theorem roundHalfEven_ge (q : ℚ) (n : Int) (h : (n : ℚ) ≤ q) : n ≤ roundHalfEven q :=
  le_trans (Int.le_floor.mpr h) (roundHalfEven_floor_le q)

theorem roundHalfEven_eq_of_near (q : ℚ) (n : Int) (h : |q - n| < 1 / 2) :
    roundHalfEven q = n := by
  have he := roundHalfEven_error q
  rw [abs_le] at he
  rw [abs_lt] at h
  have h1 : ((roundHalfEven q : Int) : ℚ) < (n : ℚ) + 1 := by linarith
  have h2 : (n : ℚ) - 1 < ((roundHalfEven q : Int) : ℚ) := by linarith
  have h1' : roundHalfEven q < n + 1 := by exact_mod_cast h1
  have h2' : n - 1 < roundHalfEven q := by exact_mod_cast h2
  omega

theorem log_two_eq (x : ℚ) (k : Int) (h1 : (2 : ℚ) ^ k ≤ x) (h2 : x < 2 ^ (k + 1)) :
    Int.log 2 x = k := by
  have hx : 0 < x := lt_of_lt_of_le (by positivity) h1
  have ha : k ≤ Int.log 2 x := (Int.zpow_le_iff_le_log (by norm_num) hx).mp (by exact_mod_cast h1)
  have hb : Int.log 2 x < k + 1 :=
    (Int.lt_zpow_iff_log_lt (by norm_num) hx).mp (by exact_mod_cast h2)
  omega

theorem f64_of_exponent (x : ℚ) (k : Int) (h1 : (2 : ℚ) ^ k ≤ |x|) (h2 : |x| < 2 ^ (k + 1)) :
    f64 x = (roundHalfEven (x / 2 ^ (k - 52)) : ℚ) * 2 ^ (k - 52) := by
  have hx : x ≠ 0 := by
    intro h0
    rw [h0, abs_zero] at h1
    exact absurd h1 (not_le.mpr (by positivity))
  simp only [f64, hx, if_false, log_two_eq |x| k h1 h2]

theorem f64_exponent (x : ℚ) (hx : x ≠ 0) :
    ∃ k : Int, (2 : ℚ) ^ k ≤ |x| ∧ |x| < 2 ^ (k + 1) ∧
      f64 x = (roundHalfEven (x / 2 ^ (k - 52)) : ℚ) * 2 ^ (k - 52) := by
  have hpos : 0 < |x| := abs_pos.mpr hx
  have h1 : (2 : ℚ) ^ Int.log 2 |x| ≤ |x| := by
    exact_mod_cast Int.zpow_log_le_self (b := 2) (by norm_num) hpos
  have h2 : |x| < (2 : ℚ) ^ (Int.log 2 |x| + 1) := by
    exact_mod_cast Int.lt_zpow_succ_log_self (b := 2) (by norm_num) |x|
  exact ⟨Int.log 2 |x|, h1, h2, f64_of_exponent x _ h1 h2⟩

theorem zpow_two_lt_imp (k j : Int) (x : ℚ) (h1 : (2 : ℚ) ^ k ≤ x) (h2 : x < 2 ^ j) :
    k < j := by
  by_contra hkj
  have hle : (2 : ℚ) ^ j ≤ 2 ^ k := zpow_le_zpow_right₀ (by norm_num) (not_lt.mp hkj)
  linarith

/-- The rounding error is at most half a unit in the last place. -/
theorem f64_error (x : ℚ) (k : Int) (h : |x| < 2 ^ (k + 1)) :
    |f64 x - x| ≤ 2 ^ (k - 53) := by
  by_cases hx : x = 0
  · simp [hx, f64]
    positivity
  · obtain ⟨k0, h1, _, hf⟩ := f64_exponent x hx
    have hk : k0 < k + 1 := zpow_two_lt_imp k0 (k + 1) |x| h1 h
    have hpow : (0 : ℚ) < 2 ^ (k0 - 52) := by positivity
    have hxy : x = x / 2 ^ (k0 - 52) * 2 ^ (k0 - 52) := by
      field_simp
    have herr := roundHalfEven_error (x / 2 ^ (k0 - 52))
    have hdiff : f64 x - x
        = ((roundHalfEven (x / 2 ^ (k0 - 52)) : ℚ) - x / 2 ^ (k0 - 52)) * 2 ^ (k0 - 52) := by
      rw [hf, sub_mul, ← hxy]
    rw [hdiff, abs_mul, abs_of_pos hpow]
    have hhalf : (1 / 2 : ℚ) * 2 ^ (k0 - 52) = 2 ^ (k0 - 53) := by
      have : k0 - 52 = (k0 - 53) + 1 := by ring
      rw [this, zpow_add_one₀ (by norm_num : (2 : ℚ) ≠ 0)]
      ring
    calc |(roundHalfEven (x / 2 ^ (k0 - 52)) : ℚ) - x / 2 ^ (k0 - 52)| * 2 ^ (k0 - 52)
        ≤ 1 / 2 * 2 ^ (k0 - 52) := mul_le_mul_of_nonneg_right herr hpow.le
      _ = 2 ^ (k0 - 53) := hhalf
      _ ≤ 2 ^ (k - 53) := zpow_le_zpow_right₀ (by norm_num) (by omega)

/-- Rounding does not fall below an integer that the exact value reaches. -/
theorem f64_ge_int (x : ℚ) (n : Int) (hn : (n : ℚ) ≤ x) (hx0 : 0 ≤ x)
    (hx : x < 2 ^ (53 : Int)) : (n : ℚ) ≤ f64 x := by
  by_cases h0 : x = 0
  · rw [h0] at hn
    simpa [h0, f64] using hn
  · obtain ⟨k0, h1, _, hf⟩ := f64_exponent x h0
    rw [abs_of_nonneg hx0] at h1
    have hk : k0 < 53 := zpow_two_lt_imp k0 53 x h1 hx
    obtain ⟨m, hm⟩ : ∃ m : ℕ, (m : Int) = 52 - k0 := ⟨(52 - k0).toNat, by omega⟩
    have he : k0 - 52 = -(m : Int) := by omega
    have hpow : (0 : ℚ) < 2 ^ m := by positivity
    rw [hf, he, zpow_neg, zpow_natCast, div_inv_eq_mul]
    have hN : ((n * 2 ^ m : Int) : ℚ) ≤ x * 2 ^ m := by
      push_cast
      exact mul_le_mul_of_nonneg_right hn hpow.le
    have hR := roundHalfEven_ge (x * 2 ^ m) (n * 2 ^ m) hN
    have hR' : ((n * 2 ^ m : Int) : ℚ) ≤ (roundHalfEven (x * 2 ^ m) : ℚ) := by exact_mod_cast hR
    push_cast at hR'
    rw [le_mul_inv_iff₀ hpow]
    exact hR'

/-- An integer below `2 ^ 53` in absolute value is a `float64`. -/
theorem f64_intCast (n : Int) (hn : |(n : ℚ)| < 2 ^ (53 : Int)) : f64 (n : ℚ) = n := by
  by_cases h0 : (n : ℚ) = 0
  · simp [h0, f64]
  · obtain ⟨k0, h1, _, hf⟩ := f64_exponent (n : ℚ) h0
    have hk : k0 < 53 := zpow_two_lt_imp k0 53 _ h1 hn
    obtain ⟨m, hm⟩ : ∃ m : ℕ, (m : Int) = 52 - k0 := ⟨(52 - k0).toNat, by omega⟩
    have he : k0 - 52 = -(m : Int) := by omega
    have hpow : (2 : ℚ) ^ m ≠ 0 := by positivity
    rw [hf, he, zpow_neg, zpow_natCast, div_inv_eq_mul]
    have hcast : (n : ℚ) * 2 ^ m = ((n * 2 ^ m : Int) : ℚ) := by push_cast; ring
    rw [hcast, roundHalfEven_intCast]
    push_cast
    field_simp

/-- The pattern `float64(q) + float64(r)/C` of `Hours`, `Minutes` and
    `Seconds` truncates to `q` as long as half a unit in the last place of
    the sum stays below `1/C`. -/
theorem float_units_trunc (q r C : Int) (k : Int) (hq : 0 ≤ q) (hr : 0 ≤ r) (hrC : r < C)
    (hC : (C : ℚ) < 2 ^ (53 : Int)) (hk : k + 1 ≤ 53)
    (hqk : (q : ℚ) + 1 ≤ 2 ^ (k + 1))
    (hmargin : (2 : ℚ) ^ (k - 53) + 2 ^ (-54 : Int) < 1 / (C : ℚ)) :
    truncToInt (f64 (f64 (q : ℚ) + f64 (f64 (r : ℚ) / f64 (C : ℚ)))) = q := by
  have hCpos : (0 : ℚ) < C := by exact_mod_cast lt_of_le_of_lt hr hrC
  have hq0 : (0 : ℚ) ≤ q := by exact_mod_cast hq
  have hr0 : (0 : ℚ) ≤ r := by exact_mod_cast hr
  have hrC' : (r : ℚ) + 1 ≤ C := by exact_mod_cast hrC
  have hpow : (2 : ℚ) ^ (k + 1) ≤ 2 ^ (53 : Int) := zpow_le_zpow_right₀ (by norm_num) hk
  have hfq : f64 (q : ℚ) = q := f64_intCast q (by rw [abs_of_nonneg hq0]; linarith)
  have hfr : f64 (r : ℚ) = r := f64_intCast r (by rw [abs_of_nonneg hr0]; linarith)
  have hfC : f64 (C : ℚ) = C := f64_intCast C (by rw [abs_of_pos hCpos]; exact hC)
  rw [hfq, hfr, hfC]
  have hfrac0 : (0 : ℚ) ≤ (r : ℚ) / C := div_nonneg hr0 hCpos.le
  have hfrac1 : (r : ℚ) / C ≤ 1 - 1 / C := by
    rw [div_le_iff₀ hCpos, sub_mul, one_div, inv_mul_cancel₀ hCpos.ne']
    linarith
  have hinv : (0 : ℚ) < 1 / C := by positivity
  have hfraclt : (r : ℚ) / C < 1 := by linarith
  have hc0 : (0 : ℚ) ≤ f64 ((r : ℚ) / C) := by
    have := f64_ge_int ((r : ℚ) / C) 0 (by simpa using hfrac0) hfrac0
      (lt_trans hfraclt (by norm_num))
    simpa using this
  have hcerr := f64_error ((r : ℚ) / C) (-1)
    (by rw [abs_of_nonneg hfrac0]; simpa using hfraclt)
  rw [abs_le] at hcerr
  have hc1 : f64 ((r : ℚ) / C) ≤ 1 - 1 / C + 2 ^ (-54 : Int) := by
    have h54 : ((-1 : Int) - 53) = -54 := by norm_num
    rw [h54] at hcerr
    linarith [hcerr.2]
  have h53 : (0 : ℚ) < 2 ^ (k - 53) := by positivity
  have hx0 : (0 : ℚ) ≤ (q : ℚ) + f64 ((r : ℚ) / C) := by linarith
  have hxlt : (q : ℚ) + f64 ((r : ℚ) / C) < 2 ^ (k + 1) := by linarith
  have hlow := f64_ge_int ((q : ℚ) + f64 ((r : ℚ) / C)) q (by linarith) hx0
    (lt_of_lt_of_le hxlt hpow)
  have herr := f64_error ((q : ℚ) + f64 ((r : ℚ) / C)) k
    (by rw [abs_of_nonneg hx0]; exact hxlt)
  rw [abs_le] at herr
  have hhigh : f64 ((q : ℚ) + f64 ((r : ℚ) / C)) < (q : ℚ) + 1 := by linarith [herr.2]
  have hnonneg : (0 : ℚ) ≤ f64 ((q : ℚ) + f64 ((r : ℚ) / C)) := le_trans hq0 hlow
  simp only [truncToInt, hnonneg, if_true]
  rw [Int.floor_eq_iff]
  exact ⟨hlow, hhigh⟩

/-! ## Formatting a duration -/

theorem Hour_eq : Hour = 3600000000000 := by norm_num [Hour, Minute, Second]

theorem Minute_eq : Minute = 60000000000 := by norm_num [Minute, Second]

theorem Second_eq : Second = 1000000000 := rfl

/-- Below 4096 hours `int(d.Hours())` is the whole number of hours. -/
theorem truncToInt_Hours (d : Int) (h0 : 0 ≤ d) (h : d < 4096 * Hour) :
    truncToInt (Hours d) = d / Hour := by
  rw [Hour_eq] at h ⊢
  have hq : d / 3600000000000 < 4096 := by omega
  have hq0 : 0 ≤ d / 3600000000000 := by omega
  have hqc : ((d / 3600000000000 : Int) : ℚ) + 1 ≤ 2 ^ ((11 : Int) + 1) := by
    have : d / 3600000000000 + 1 ≤ 4096 := by omega
    have h' : ((d / 3600000000000 + 1 : Int) : ℚ) ≤ 4096 := by exact_mod_cast this
    push_cast at h'
    norm_num
    linarith
  have hconst : (60 * 60 * 1000000000 : ℚ) = ((3600000000000 : Int) : ℚ) := by norm_num
  unfold Hours
  rw [Hour_eq, hconst, Int.tdiv_eq_ediv h0 (by norm_num), Int.tmod_eq_emod h0 (by norm_num)]
  exact float_units_trunc (d / 3600000000000) (d % 3600000000000) 3600000000000 11 hq0
    (by omega) (by omega) (by norm_num) (by norm_num) hqc (by norm_num)

/-- Below `2 ^ 18` minutes `int(d.Minutes())` is the whole number of minutes. -/
theorem truncToInt_Minutes (d : Int) (h0 : 0 ≤ d) (h : d < 262144 * Minute) :
    truncToInt (Minutes d) = d / Minute := by
  rw [Minute_eq] at h ⊢
  have hq0 : 0 ≤ d / 60000000000 := by omega
  have hqc : ((d / 60000000000 : Int) : ℚ) + 1 ≤ 2 ^ ((17 : Int) + 1) := by
    have : d / 60000000000 + 1 ≤ 262144 := by omega
    have h' : ((d / 60000000000 + 1 : Int) : ℚ) ≤ 262144 := by exact_mod_cast this
    push_cast at h'
    norm_num
    linarith
  have hconst : (60 * 1000000000 : ℚ) = ((60000000000 : Int) : ℚ) := by norm_num
  unfold Minutes
  rw [Minute_eq, hconst, Int.tdiv_eq_ediv h0 (by norm_num), Int.tmod_eq_emod h0 (by norm_num)]
  exact float_units_trunc (d / 60000000000) (d % 60000000000) 60000000000 17 hq0
    (by omega) (by omega) (by norm_num) (by norm_num) hqc (by norm_num)

/-- Below `2 ^ 24` seconds `int(d.Seconds())` is the whole number of seconds. -/
theorem truncToInt_Seconds (d : Int) (h0 : 0 ≤ d) (h : d < 16777216 * Second) :
    truncToInt (Seconds d) = d / Second := by
  rw [Second_eq] at h ⊢
  have hq0 : 0 ≤ d / 1000000000 := by omega
  have hqc : ((d / 1000000000 : Int) : ℚ) + 1 ≤ 2 ^ ((23 : Int) + 1) := by
    have : d / 1000000000 + 1 ≤ 16777216 := by omega
    have h' : ((d / 1000000000 + 1 : Int) : ℚ) ≤ 16777216 := by exact_mod_cast this
    push_cast at h'
    norm_num
    linarith
  have hconst : (1000000000 : ℚ) = ((1000000000 : Int) : ℚ) := by norm_num
  unfold Seconds
  rw [Second_eq, hconst, Int.tdiv_eq_ediv h0 (by norm_num), Int.tmod_eq_emod h0 (by norm_num)]
  exact float_units_trunc (d / 1000000000) (d % 1000000000) 1000000000 23 hq0
    (by omega) (by omega) (by norm_num) (by norm_num) hqc (by norm_num)

/-- One nanosecond short of 4097 hours the sum `float64(hour) + float64(nsec)/3.6e12`
    lies within half a unit in the last place of 4097 and rounds up to it. -/
theorem truncToInt_Hours_rounds_up : truncToInt (Hours (4097 * Hour - 1)) = 4097 := by
  have hd : 4097 * Hour - 1 = 14749199999999999 := by norm_num [Hour_eq]
  have hq : Int.tdiv 14749199999999999 3600000000000 = 4096 := by decide
  have hr : Int.tmod 14749199999999999 3600000000000 = 3599999999999 := by decide
  have hconst : (60 * 60 * 1000000000 : ℚ) = ((3600000000000 : Int) : ℚ) := by norm_num
  unfold Hours
  rw [hd, Hour_eq, hq, hr, hconst, f64_intCast 4096 (by norm_num [abs_of_pos]),
    f64_intCast 3599999999999 (by norm_num [abs_of_pos]),
    f64_intCast 3600000000000 (by norm_num [abs_of_pos])]
  have hfrac0 : (0 : ℚ) ≤ ((3599999999999 : Int) : ℚ) / ((3600000000000 : Int) : ℚ) := by
    norm_num
  have hcerr := f64_error (((3599999999999 : Int) : ℚ) / ((3600000000000 : Int) : ℚ)) (-1)
    (by rw [abs_of_nonneg hfrac0]; norm_num)
  rw [abs_le] at hcerr
  obtain ⟨hlo, hhi⟩ := hcerr
  generalize f64 (((3599999999999 : Int) : ℚ) / ((3600000000000 : Int) : ℚ)) = c at hlo hhi
  norm_num at hlo hhi
  have hx0 : (0 : ℚ) ≤ ((4096 : Int) : ℚ) + c := by push_cast; linarith
  have h1 : (2 : ℚ) ^ (12 : Int) ≤ |((4096 : Int) : ℚ) + c| := by
    rw [abs_of_nonneg hx0]; push_cast; norm_num; linarith
  have h2 : |((4096 : Int) : ℚ) + c| < 2 ^ ((12 : Int) + 1) := by
    rw [abs_of_nonneg hx0]; push_cast; norm_num; linarith
  rw [f64_of_exponent _ 12 h1 h2]
  have hround : roundHalfEven ((((4096 : Int) : ℚ) + c) / 2 ^ ((12 : Int) - 52))
      = 4097 * 2 ^ 40 := by
    apply roundHalfEven_eq_of_near
    have hexp : ((12 : Int) - 52) = -((40 : ℕ) : Int) := by norm_num
    rw [hexp, zpow_neg, zpow_natCast, div_inv_eq_mul, abs_lt]
    push_cast
    constructor <;> norm_num <;> linarith
  rw [hround]
  have hval : (((4097 * 2 ^ 40 : Int) : ℚ)) * 2 ^ ((12 : Int) - 52) = 4097 := by
    have hexp : ((12 : Int) - 52) = -((40 : ℕ) : Int) := by norm_num
    rw [hexp, zpow_neg, zpow_natCast]
    push_cast
    norm_num
  rw [hval]
  norm_num [truncToInt]

/-- Below 4096 hours the three fields are the whole hours, the whole minutes
    modulo 60 and the whole seconds modulo 60. -/
theorem formatDurationHMS_of_lt (d : Int) (h0 : 0 ≤ d) (h : d < 4096 * Hour) :
    formatDurationHMS d = (d / Hour, d / Minute % 60, d / Second % 60) ∧
    formatDuration d = sprintfHMS (d / Hour) (d / Minute % 60) (d / Second % 60) := by
  have hH := truncToInt_Hours d h0 h
  have hM := truncToInt_Minutes d h0 (by rw [Hour_eq] at h; rw [Minute_eq]; omega)
  have hS := truncToInt_Seconds d h0 (by rw [Hour_eq] at h; rw [Second_eq]; omega)
  have hm0 : 0 ≤ d / Minute := by rw [Minute_eq]; omega
  have hs0 : 0 ≤ d / Second := by rw [Second_eq]; omega
  have htm : (d / Minute).tmod 60 = d / Minute % 60 :=
    Int.tmod_eq_emod hm0 (by norm_num : (0 : Int) ≤ 60)
  have hts : (d / Second).tmod 60 = d / Second % 60 :=
    Int.tmod_eq_emod hs0 (by norm_num : (0 : Int) ≤ 60)
  simp only [formatDurationHMS, formatDuration, hH, hM, hS, htm, hts, and_self]

/-- C14, evaluated at the failing input. One nanosecond short of 4097 hours
    `formatDuration` prints "4097h 59m 59s", while the whole hours, minutes
    modulo 60 and seconds modulo 60 of that duration print as
    "4096h 59m 59s"; an activity with one closed session of that length gets
    this `TotalSpentFormatted`.  The two examples of the claim come out as
    stated. -/
theorem formatDuration_hour_rounds_up :
    formatDuration (4097 * Hour - 1) = "4097h 59m 59s" ∧
    sprintfHMS ((4097 * Hour - 1) / Hour) ((4097 * Hour - 1) / Minute % 60)
      ((4097 * Hour - 1) / Second % 60) = "4096h 59m 59s" ∧
    (getActivityStats 5 ⟨"reading", [⟨1, 14749200000000000⟩]⟩).TotalSpentFormatted
      = "4097h 59m 59s" ∧
    formatDuration (5400 * Second) = "01h 30m 00s" ∧
    formatDuration 0 = "00h 00m 00s" := by
  have hM := truncToInt_Minutes (4097 * Hour - 1) (by norm_num [Hour_eq])
    (by norm_num [Hour_eq, Minute_eq])
  have hS := truncToInt_Seconds (4097 * Hour - 1) (by norm_num [Hour_eq])
    (by norm_num [Hour_eq, Second_eq])
  have hdH : (4097 * Hour - 1) / Hour = 4096 := by norm_num [Hour_eq]
  have hdM : (4097 * Hour - 1) / Minute = 245819 := by norm_num [Hour_eq, Minute_eq]
  have hdS : (4097 * Hour - 1) / Second = 14749199 := by norm_num [Hour_eq, Second_eq]
  have hfail : formatDuration (4097 * Hour - 1) = "4097h 59m 59s" := by
    simp only [formatDuration, truncToInt_Hours_rounds_up, hM, hS, hdM, hdS]
    decide
  have htotal : (getActivityStats 5 ⟨"reading", [⟨1, 14749200000000000⟩]⟩).TotalDuration
      = 4097 * Hour - 1 := by decide
  refine ⟨hfail, ?_, ?_, ?_, ?_⟩
  · rw [hdH, hdM, hdS]
    decide
  · rw [ActivityStats.TotalSpentFormatted, htotal]
    exact hfail
  · rw [(formatDurationHMS_of_lt (5400 * Second) (by norm_num [Second_eq])
      (by norm_num [Hour_eq, Second_eq])).2]
    have h1 : 5400 * Second / Hour = 1 := by norm_num [Hour_eq, Second_eq]
    have h2 : 5400 * Second / Minute = 90 := by norm_num [Minute_eq, Second_eq]
    have h3 : 5400 * Second / Second = 5400 := by norm_num [Second_eq]
    rw [h1, h2, h3]
    decide
  · rw [(formatDurationHMS_of_lt 0 (le_refl 0) (by norm_num [Hour_eq])).2]
    decide

/-- C19, evaluated at the failing input. One nanosecond short of 4097 hours
    `formatDurationHMS` yields (4097, 59, 59), so `h*3600 + m*60 + s` exceeds
    the whole number of seconds of the duration by 3600; `formatDuration` is
    the rendering of the triple of `formatDurationHMS` for every duration. -/
theorem formatDurationHMS_hour_rounds_up :
    formatDurationHMS (4097 * Hour - 1) = (4097, 59, 59) ∧
    (4097 * Hour - 1) / Second = 14749199 ∧
    (4097 : Int) * 3600 + 59 * 60 + 59 = 14749199 + 3600 ∧
    ∀ d, formatDuration d = sprintfHMS (formatDurationHMS d).1 (formatDurationHMS d).2.1
      (formatDurationHMS d).2.2 := by
  have hM := truncToInt_Minutes (4097 * Hour - 1) (by norm_num [Hour_eq])
    (by norm_num [Hour_eq, Minute_eq])
  have hS := truncToInt_Seconds (4097 * Hour - 1) (by norm_num [Hour_eq])
    (by norm_num [Hour_eq, Second_eq])
  have hdM : (4097 * Hour - 1) / Minute = 245819 := by norm_num [Hour_eq, Minute_eq]
  have hdS : (4097 * Hour - 1) / Second = 14749199 := by norm_num [Hour_eq, Second_eq]
  refine ⟨?_, hdS, by norm_num, fun d => rfl⟩
  simp only [formatDurationHMS, truncToInt_Hours_rounds_up, hM, hS, hdM, hdS]
  decide

theorem foldl_statsStep_closed (now1 now2 : Time) (sessions : List Session)
    (acc : StatsAcc) (h : ∀ s ∈ sessions, s.EndedAt ≠ 0) :
    sessions.foldl (statsStep now1) acc = sessions.foldl (statsStep now2) acc := by
  induction sessions generalizing acc with
  | nil => rfl
  | cons s sessions ih =>
    have hs : s.EndedAt ≠ 0 := h s (List.mem_cons_self _ _)
    have hstep : statsStep now1 acc s = statsStep now2 acc s := by
      simp [statsStep, IsZero, hs]
    rw [List.foldl_cons, List.foldl_cons, hstep]
    exact ih _ (fun t ht => h t (List.mem_cons_of_mem _ ht))

/-- C16. Stats do not depend on the clock for a closed activity: when every
    session has `EndedAt` set, `getActivityStats` returns the same result at
    any two clock readings, with the same total duration, the same
    `TotalSpentFormatted` and `IsActive = false`. -/
theorem getActivityStats_clock_independent (activity : Activity)
    (hclosed : ∀ s ∈ activity.Sessions, s.EndedAt ≠ 0) (now1 now2 : Time) :
    getActivityStats now1 activity = getActivityStats now2 activity ∧
    (getActivityStats now1 activity).TotalDuration
      = (getActivityStats now2 activity).TotalDuration ∧
    (getActivityStats now1 activity).TotalSpentFormatted
      = (getActivityStats now2 activity).TotalSpentFormatted ∧
    (getActivityStats now1 activity).IsActive = false ∧
    (getActivityStats now2 activity).IsActive = false := by
  have heq : getActivityStats now1 activity = getActivityStats now2 activity := by
    simp only [getActivityStats,
      foldl_statsStep_closed now1 now2 activity.Sessions ⟨0, false, 0⟩ hclosed]
  have hinactive : ∀ now, (getActivityStats now activity).IsActive = false := by
    intro now
    rw [getActivityStats_IsActive, List.any_eq_false]
    intro s hs
    simpa [IsZero] using hclosed s hs
  exact ⟨heq, by rw [heq], by rw [heq], hinactive now1, hinactive now2⟩

/-- Witness for C16: the activity "reading" with one closed session of 5400
    seconds, looked at two clock readings. -/
theorem getActivityStats_clock_independent_witness :
    getActivityStats 7000000000000 ⟨"reading", [⟨1000, 5400000001000⟩]⟩
      = getActivityStats 9000000000000 ⟨"reading", [⟨1000, 5400000001000⟩]⟩ ∧
    (getActivityStats 7000000000000 ⟨"reading", [⟨1000, 5400000001000⟩]⟩).TotalDuration
      = (getActivityStats 9000000000000 ⟨"reading", [⟨1000, 5400000001000⟩]⟩).TotalDuration ∧
    (getActivityStats 7000000000000
        ⟨"reading", [⟨1000, 5400000001000⟩]⟩).TotalSpentFormatted
      = (getActivityStats 9000000000000
        ⟨"reading", [⟨1000, 5400000001000⟩]⟩).TotalSpentFormatted ∧
    (getActivityStats 7000000000000 ⟨"reading", [⟨1000, 5400000001000⟩]⟩).IsActive = false ∧
    (getActivityStats 9000000000000 ⟨"reading", [⟨1000, 5400000001000⟩]⟩).IsActive = false :=
  getActivityStats_clock_independent ⟨"reading", [⟨1000, 5400000001000⟩]⟩ (by decide)
    7000000000000 9000000000000

end Kal
